import Mathlib

/-!
Verification of the `lf-queue` repository (an unbounded lock-free MPMC FIFO
queue) against its natural-language specification.

The development is a shallow embedding of the source under `src/`:

* `src/src/slot.rs`  — `Slot`, `FILLED`, `READING`, `DRAINING`
* `src/src/node.rs`  — `Node`, `NODE_SIZE`, `NODE_CAPACITY`, `Node::drain`,
  `Node::wait_next`
* `src/src/queue.rs` — `Inner::new`, `Inner::push`, `Inner::pop`,
  `MARK_BIT`, `MARK_BIT_SHIFT`, `Queue::new`, `Default for Queue`

Pointers are modelled as natural-number node ids into an explicit heap
(an association list), machine words (`usize`) as `Nat` reduced modulo
`2 ^ 64` wherever the source can overflow.  The claims under scrutiny are
single-threaded executions, so every atomic read-modify-write executes
uninterfered: a `compare_exchange_weak` against a freshly loaded value
succeeds, and a spin loop (`yield_now` / `wait_next` / `wait_filled`)
whose exit condition no other thread can change diverges — divergence is
rendered as `none`.  Each operation additionally returns a trace of the
shared-memory writes it performed, in program order, so that claims about
the order of stores are expressible.
-/

namespace LfQueue

/-- `NODE_SIZE` from `src/src/node.rs` (the non-loom production value). -/
def NODE_SIZE : Nat := 8

/-- `NODE_CAPACITY` from `src/src/node.rs`: `NODE_SIZE - 1`. -/
def NODE_CAPACITY : Nat := NODE_SIZE - 1

/-- `FILLED` bit flag from `src/src/slot.rs`. -/
def FILLED : Nat := 1

/-- `READING` bit flag from `src/src/slot.rs`. -/
def READING : Nat := 2

/-- `DRAINING` bit flag from `src/src/slot.rs`. -/
def DRAINING : Nat := 4

/-- `MARK_BIT_SHIFT` from `src/src/queue.rs`. -/
def MARK_BIT_SHIFT : Nat := 1

/-- `MARK_BIT` from `src/src/queue.rs`. -/
def MARK_BIT : Nat := 1

/-- The number of values of a 64-bit `usize`. -/
def USIZE : Nat := 2 ^ 64

/-- Wrap a `Nat` to 64-bit `usize` range (Rust release-mode wrapping). -/
def wrap (n : Nat) : Nat := n % USIZE

/-- `Slot<T>` from `src/src/slot.rs`: an `UnsafeCell<MaybeUninit<T>>` item
(`none` models the uninitialised cell) and an atomic state word. -/
structure Slot (α : Type) where
  item : Option α
  state : Nat
deriving DecidableEq

/-- `Slot::UNINIT` from `src/src/slot.rs`. -/
def Slot.UNINIT {α : Type} : Slot α := ⟨none, 0⟩

/-- `Node<T>` from `src/src/node.rs`: an atomic pointer to the successor
(`none` models null) and a container of `NODE_CAPACITY` slots. -/
structure Node (α : Type) where
  next : Option Nat
  container : List (Slot α)
deriving DecidableEq

/-- `Node::UNINIT` from `src/src/node.rs`. -/
def Node.UNINIT {α : Type} : Node α :=
  ⟨none, List.replicate NODE_CAPACITY Slot.UNINIT⟩

/-- `Cursor<T>` from `src/src/queue.rs`: an atomic index and an atomic
pointer to the current node. -/
structure Cursor where
  index : Nat
  node : Nat
deriving DecidableEq

/-- The state of `Inner<T>` from `src/src/queue.rs`, together with the heap
of live nodes (`Box` allocations reachable through the node pointers), the
allocator counter producing fresh node ids, and the log of node ids whose
`Box` has been dropped. -/
structure State (α : Type) where
  head : Cursor
  tail : Cursor
  heap : List (Nat × Node α)
  fresh : Nat
  freed : List Nat
deriving DecidableEq

/-- One shared-memory write performed by an operation, in program order. -/
inductive Ev where
  | casTailIndex (old new : Nat)
  | allocNode (id : Nat)
  | storeTailNode (id : Nat)
  | fetchAddTailIndex (v : Nat)
  | storeNext (node id : Nat)
  | writeItem (node off : Nat)
  | orState (node off flag : Nat)
  | casHeadIndex (old new : Nat)
  | storeHeadNode (id : Nat)
  | storeHeadIndex (v : Nat)
  | freeNode (id : Nat)
deriving DecidableEq

/-- Dereference a node pointer: look a node id up in the heap. -/
def lookupNode {α : Type} (s : State α) (id : Nat) : Option (Node α) :=
  (s.heap.find? (fun p => p.1 == id)).map (·.2)

/-- Mutate the node behind a pointer in place. -/
def updateNode {α : Type} (s : State α) (id : Nat) (f : Node α → Node α) :
    State α :=
  { s with heap := s.heap.map (fun p => if p.1 = id then (p.1, f p.2) else p) }

/-- Mutate one slot of a node's container in place. -/
def Node.setSlot {α : Type} (n : Node α) (off : Nat) (f : Slot α → Slot α) :
    Node α :=
  { n with container := n.container.set off (f (n.container.getD off Slot.UNINIT)) }

/-- `slot.item.with_mut(|p| p.write(MaybeUninit::new(item)))` — write the
payload into a slot's cell. -/
def writeItem {α : Type} (s : State α) (id off : Nat) (x : α) : State α :=
  updateNode s id (fun n => n.setSlot off (fun sl => { sl with item := some x }))

/-- `slot.state.fetch_or(flag, _)` — or a flag into a slot's state word. -/
def orState {α : Type} (s : State α) (id off flag : Nat) : State α :=
  updateNode s id (fun n => n.setSlot off (fun sl => { sl with state := sl.state ||| flag }))

/-- Read a slot's state word (0 for a dangling pointer, which well-formed
executions never produce). -/
def slotState {α : Type} (s : State α) (id off : Nat) : Nat :=
  match lookupNode s id with
  | some n => (n.container.getD off Slot.UNINIT).state
  | none => 0

/-- Read a slot's payload cell. -/
def slotItem {α : Type} (s : State α) (id off : Nat) : Option α :=
  match lookupNode s id with
  | some n => (n.container.getD off Slot.UNINIT).item
  | none => none

/-- `(*node).next.store(v, _)`. -/
def storeNext {α : Type} (s : State α) (id : Nat) (nx : Option Nat) : State α :=
  updateNode s id (fun n => { n with next := nx })

/-- `(*node).next.load(_)`. -/
def nextOf {α : Type} (s : State α) (id : Nat) : Option Nat :=
  (lookupNode s id).bind (·.next)

/-- `drop(Box::from_raw(node))` — remove a node from the heap and record
that its allocation was released. -/
def freeNode {α : Type} (s : State α) (id : Nat) : State α :=
  { s with heap := s.heap.filter (fun p => p.1 != id), freed := s.freed ++ [id] }

/-- `Inner::new` from `src/src/queue.rs`: both cursors at index 0 pointing
at one freshly allocated `Node::UNINIT`. -/
def Inner.new {α : Type} : State α :=
  { head := ⟨0, 0⟩, tail := ⟨0, 0⟩,
    heap := [(0, Node.UNINIT)], fresh := 1, freed := [] }

/-- `Queue::new` from `src/src/queue.rs` (delegates to `Inner::new`). -/
def Queue.new {α : Type} : State α := Inner.new

/-- `Default for Queue` from `src/src/queue.rs`: `Self::new()`. -/
def Queue.defaultState {α : Type} : State α := Queue.new

/-- `Inner::push` from `src/src/queue.rs`, single-threaded execution.
The CAS on `tail.index` succeeds (no interference); if the loaded offset is
the sentinel `NODE_CAPACITY` the producer would spin on `yield_now` forever
since no other thread can install the successor: `none`. -/
def Inner.push {α : Type} (s : State α) (item : α) :
    Option (State α × List Ev) :=
  let tail_index := s.tail.index
  let tail_node := s.tail.node
  let offset := (tail_index >>> MARK_BIT_SHIFT) % NODE_SIZE
  if offset = NODE_CAPACITY then
    none
  else
    let next_tail_index := wrap (tail_index + (1 <<< MARK_BIT_SHIFT))
    let s1 : State α := { s with tail := { s.tail with index := next_tail_index } }
    if offset + 1 = NODE_CAPACITY then
      let next_node := s1.fresh
      let s2 : State α :=
        { s1 with heap := s1.heap ++ [(next_node, Node.UNINIT)], fresh := s1.fresh + 1 }
      let s3 : State α := { s2 with tail := { s2.tail with node := next_node } }
      let s4 : State α :=
        { s3 with tail := { s3.tail with index := wrap (s3.tail.index + (1 <<< MARK_BIT_SHIFT)) } }
      let s5 := storeNext s4 tail_node (some next_node)
      let s6 := writeItem s5 tail_node offset item
      let s7 := orState s6 tail_node offset FILLED
      some (s7,
        [Ev.casTailIndex tail_index next_tail_index,
         Ev.allocNode next_node,
         Ev.storeTailNode next_node,
         Ev.fetchAddTailIndex (1 <<< MARK_BIT_SHIFT),
         Ev.storeNext tail_node next_node,
         Ev.writeItem tail_node offset,
         Ev.orState tail_node offset FILLED])
    else
      let s6 := writeItem s1 tail_node offset item
      let s7 := orState s6 tail_node offset FILLED
      some (s7,
        [Ev.casTailIndex tail_index next_tail_index,
         Ev.writeItem tail_node offset,
         Ev.orState tail_node offset FILLED])

/-- The loop body of `Node::drain` from `src/src/node.rs`, at loop index
`i` with `fuel` iterations left to run (`for i in start..NODE_CAPACITY-1`
runs exactly `NODE_CAPACITY - 1 - start` iterations; falling out of the
loop frees the node).  A slot whose first state load lacks `READING` gets
`DRAINING` or-ed in by `fetch_or`; the `fetch_or` returns the same
pre-value in a single-threaded execution, so the second `READING` test
repeats the first. -/
def Node.drainLoop {α : Type} (s : State α) (node : Nat) (i : Nat) :
    Nat → State α × List Ev
  | 0 => (freeNode s node, [Ev.freeNode node])
  | fuel + 1 =>
    let st := slotState s node i
    if st &&& READING = 0 then
      let s1 := orState s node i DRAINING
      if st &&& READING = 0 then
        (s1, [Ev.orState node i DRAINING])
      else
        let r := Node.drainLoop s1 node (i + 1) fuel
        (r.1, Ev.orState node i DRAINING :: r.2)
    else
      Node.drainLoop s node (i + 1) fuel

/-- `Node::drain` from `src/src/node.rs`: run the loop from `start` up to
`NODE_CAPACITY - 1` (exclusive), freeing the node if the loop completes. -/
def Node.drain {α : Type} (s : State α) (node start : Nat) : State α × List Ev :=
  Node.drainLoop s node start (NODE_CAPACITY - 1 - start)

/-- The `Ok` branch of the head-index CAS in `Inner::pop`
(`src/src/queue.rs`): node transition, `wait_filled`, payload read and the
reclamation step.  `wait_next` on a null successor and `wait_filled` on an
unfilled slot diverge single-threaded (`none`); so does reading an
uninitialised cell, which well-formed executions never do. -/
def Inner.popCommit {α : Type} (s : State α)
    (head_index head_node offset next_head_index : Nat) :
    Option (Option α × State α × List Ev) :=
  let s1 : State α := { s with head := { s.head with index := next_head_index } }
  let trans : Option (State α × List Ev) :=
    if offset + 1 = NODE_CAPACITY then
      match nextOf s1 head_node with
      | none => none
      | some next_node =>
        -- `(next_head_index & !MARK_BIT).wrapping_add(1 << MARK_BIT_SHIFT)`;
        -- `!MARK_BIT` is the 64-bit word `USIZE - 2` (all ones, bit 0 clear)
        let base := wrap ((next_head_index &&& (USIZE - 2)) + (1 <<< MARK_BIT_SHIFT))
        let next_index := if (nextOf s1 next_node).isSome then base ||| MARK_BIT else base
        let s2 : State α := { s1 with head := { index := next_index, node := next_node } }
        some (s2, [Ev.storeHeadNode next_node, Ev.storeHeadIndex next_index])
    else
      some (s1, [])
  match trans with
  | none => none
  | some (s2, ev2) =>
    if slotState s2 head_node offset &&& FILLED = 0 then
      none
    else
      match slotItem s2 head_node offset with
      | none => none
      | some x =>
        if offset + 1 = NODE_CAPACITY then
          let r := Node.drain s2 head_node 0
          some (some x, r.1,
            Ev.casHeadIndex head_index next_head_index :: ev2 ++ r.2)
        else
          let pre := slotState s2 head_node offset
          let s3 := orState s2 head_node offset READING
          if pre &&& DRAINING ≠ 0 then
            let r := Node.drain s3 head_node (offset + 1)
            some (some x, r.1,
              Ev.casHeadIndex head_index next_head_index :: ev2
                ++ [Ev.orState head_node offset READING] ++ r.2)
          else
            some (some x, s3,
              Ev.casHeadIndex head_index next_head_index :: ev2
                ++ [Ev.orState head_node offset READING])

/-- `Inner::pop` from `src/src/queue.rs`, single-threaded execution.  The
CAS on `head.index` succeeds; a sentinel offset would spin forever
(`none`). -/
def Inner.pop {α : Type} (s : State α) : Option (Option α × State α × List Ev) :=
  let head_index := s.head.index
  let head_node := s.head.node
  let offset := (head_index >>> MARK_BIT_SHIFT) % NODE_SIZE
  if offset = NODE_CAPACITY then
    none
  else
    let next_head_index := wrap (head_index + (1 <<< MARK_BIT_SHIFT))
    if next_head_index &&& MARK_BIT = 0 then
      -- fence(SeqCst); tail.index.load(Acquire)
      let tail_index := s.tail.index
      if head_index >>> MARK_BIT_SHIFT = tail_index >>> MARK_BIT_SHIFT then
        some (none, s, [])
      else
        let marked :=
          if (head_index >>> MARK_BIT_SHIFT) / NODE_SIZE
              ≠ (tail_index >>> MARK_BIT_SHIFT) / NODE_SIZE then
            next_head_index ||| MARK_BIT
          else
            next_head_index
        Inner.popCommit s head_index head_node offset marked
    else
      Inner.popCommit s head_index head_node offset next_head_index

/-- Modelled from the source by absence: neither `Queue<T>` nor `Inner<T>`
(nor `Cursor`, `Node`, `Slot`) implements `Drop` anywhere in `src/`; when
the last `Arc<Inner<T>>` handle is dropped, Rust's derived drop releases
the two `CachePad<Cursor<T>>` fields, whose `AtomicUsize`/`AtomicPtr`
fields own no heap memory.  Hence dropping the last handle frees no node
and runs no payload destructor: the heap is left untouched. -/
def Inner.dropLast {α : Type} (s : State α) : State α := s

/-- Push every element of a list in order (single thread). -/
def pushAll {α : Type} (s : State α) : List α → Option (State α)
  | [] => some s
  | x :: l =>
    match Inner.push s x with
    | none => none
    | some (s', _) => pushAll s' l

/-- Pop `k` times in a row (single thread), collecting the results. -/
def popN {α : Type} (s : State α) : Nat → Option (List (Option α) × State α)
  | 0 => some ([], s)
  | k + 1 =>
    match Inner.pop s with
    | none => none
    | some (r, s', _) =>
      match popN s' k with
      | none => none
      | some (rs, s'') => some (r :: rs, s'')

/-! ### Bit-level bridge lemmas -/

lemma shr_one (n : Nat) : n >>> 1 = n / 2 := Nat.shiftRight_one n

lemma shl_one : (1 : Nat) <<< 1 = 2 := rfl

lemma and_mark (n : Nat) : n &&& MARK_BIT = n % 2 := Nat.and_one_is_mod n

lemma and_lor_self (a b : Nat) : a &&& (a ||| b) = a := by
  refine Nat.eq_of_testBit_eq fun i => ?_
  simp only [Nat.testBit_and, Nat.testBit_lor]
  cases a.testBit i <;> simp

lemma two_mul_lor_one (k : Nat) : 2 * k ||| 1 = 2 * k + 1 := by
  refine Nat.eq_of_testBit_eq fun i => ?_
  cases i with
  | zero =>
    have h2 : (2 * k) % 2 = 0 := by omega
    have h3 : (2 * k + 1) % 2 = 1 := by omega
    simp [Nat.testBit_lor, Nat.testBit_zero, h2, h3]
  | succ j =>
    simp only [Nat.testBit_lor]
    simp only [Nat.testBit_succ]
    have h1 : 2 * k / 2 = k := by omega
    have h2 : (1 : Nat) / 2 = 0 := by omega
    have h3 : (2 * k + 1) / 2 = k := by omega
    rw [h1, h2, h3, Nat.zero_testBit, Bool.or_false]

lemma and_not_mark (q m : Nat) (hq : q < 2 ^ 63) (hm : m ≤ 1) :
    (2 * q + m) &&& (USIZE - 2) = 2 * q := by
  refine Nat.eq_of_testBit_eq fun i => ?_
  cases i with
  | zero =>
    simp only [Nat.testBit_and, Nat.testBit_zero, USIZE]
    have h1 : (2 ^ 64 - 2) % 2 = 0 := by norm_num
    have h2 : (2 * q) % 2 = 0 := by omega
    simp [h1, h2]
  | succ j =>
    simp only [Nat.testBit_and]
    simp only [Nat.testBit_succ]
    have h1 : (2 * q + m) / 2 = q := by omega
    have h2 : (2 * q) / 2 = q := by omega
    have h3 : (USIZE - 2) / 2 = 2 ^ 63 - 1 := by norm_num [USIZE]
    rw [h1, h2, h3, Nat.testBit_two_pow_sub_one]
    by_cases hj : j < 63
    · simp [hj]
    · have : q < 2 ^ j := lt_of_lt_of_le hq (Nat.pow_le_pow_right (by omega) (by omega))
      simp [Nat.testBit_lt_two_pow this]

/-! ### Heap lemmas -/

lemma find?_key_update {α : Type} (l : List (Nat × α)) (j id : Nat) (f : α → α) :
    (l.map (fun p => if p.1 = j then (p.1, f p.2) else p)).find? (fun p => p.1 == id)
      = if id = j then (l.find? (fun p => p.1 == id)).map (fun p => (p.1, f p.2))
        else l.find? (fun p => p.1 == id) := by
  induction l with
  | nil => simp only [List.map_nil, List.find?_nil, Option.map_none']; split <;> rfl
  | cons hd tl ih =>
    by_cases hid : hd.1 = id
    · have hkey : ((if hd.1 = j then (hd.1, f hd.2) else hd).1 == id) = true := by
        split <;> simp [hid]
      by_cases hj : id = j
      · have : hd.1 = j := by omega
        simp [List.find?_cons, hkey, this, hid, hj]
      · have : ¬ hd.1 = j := by omega
        simp [List.find?_cons, hkey, this, hid, hj]
    · have hkey : ((if hd.1 = j then (hd.1, f hd.2) else hd).1 == id) = false := by
        split <;> simp [hid]
      have hkey0 : (hd.1 == id) = false := by simp [hid]
      simp only [List.map_cons, List.find?_cons, hkey, hkey0, cond_false]
      exact ih

lemma lookupNode_updateNode {α : Type} (s : State α) (j : Nat) (f : Node α → Node α)
    (id : Nat) :
    lookupNode (updateNode s j f) id
      = if id = j then (lookupNode s id).map f else lookupNode s id := by
  unfold lookupNode updateNode
  simp only
  rw [find?_key_update]
  split <;> cases (s.heap.find? (fun p => p.1 == id)) <;> simp

lemma find?_key_filter {α : Type} (l : List (Nat × α)) (j id : Nat) :
    (l.filter (fun p => p.1 != j)).find? (fun p => p.1 == id)
      = if id = j then none else l.find? (fun p => p.1 == id) := by
  induction l with
  | nil => simp only [List.filter_nil, List.find?_nil]; split <;> rfl
  | cons hd tl ih =>
    by_cases hj : hd.1 = j
    · have hfilter : ((hd :: tl).filter (fun p => p.1 != j))
          = tl.filter (fun p => p.1 != j) := by
        simp [List.filter_cons, hj]
      rw [hfilter, ih]
      by_cases hid : id = j
      · simp [hid]
      · have hkey0 : (hd.1 == id) = false := by
          simp only [beq_eq_false_iff_ne, ne_eq]; omega
        simp [List.find?_cons, hkey0, hid]
    · have hfilter : ((hd :: tl).filter (fun p => p.1 != j))
          = hd :: tl.filter (fun p => p.1 != j) := by
        simp [List.filter_cons, hj]
      rw [hfilter]
      by_cases hid : hd.1 = id
      · have hni : ¬ id = j := by omega
        have hkey0 : (hd.1 == id) = true := by simp [hid]
        simp [List.find?_cons, hkey0, hni]
      · have hkey0 : (hd.1 == id) = false := by simp [hid]
        simp only [List.find?_cons, hkey0, cond_false]
        rw [ih]

lemma lookupNode_freeNode {α : Type} (s : State α) (j id : Nat) :
    lookupNode (freeNode s j) id = if id = j then none else lookupNode s id := by
  unfold lookupNode freeNode
  simp only
  rw [find?_key_filter]
  split <;> rfl

lemma lookupNode_append {α : Type} (s : State α) (l2 : List (Nat × Node α)) (id : Nat) :
    lookupNode { s with heap := s.heap ++ l2 } id
      = ((s.heap.find? (fun p => p.1 == id)).or (l2.find? (fun p => p.1 == id))).map (·.2) := by
  unfold lookupNode
  simp only [List.find?_append]

lemma getD_set_self {α : Type} (l : List (Slot α)) (o : Nat) (v d : Slot α)
    (h : o < l.length) : (l.set o v).getD o d = v := by
  rw [List.getD_eq_getElem?_getD, List.getElem?_set]
  simp [h]

lemma getD_set_ne {α : Type} (l : List (Slot α)) (o o' : Nat) (v d : Slot α)
    (h : ¬ o = o') : (l.set o v).getD o' d = l.getD o' d := by
  rw [List.getD_eq_getElem?_getD, List.getElem?_set, if_neg h, ← List.getD_eq_getElem?_getD]

/-! ### Drain loop characterisation -/

lemma drainLoop_free {α : Type} (s : State α) (node : Nat) (i fuel : Nat)
    (h : ∀ o, i ≤ o → o < i + fuel → slotState s node o &&& READING ≠ 0) :
    Node.drainLoop s node i fuel = (freeNode s node, [Ev.freeNode node]) := by
  induction fuel generalizing s i with
  | zero => rfl
  | succ fuel ih =>
    have hi : slotState s node i &&& READING ≠ 0 := h i (Nat.le_refl i) (by omega)
    unfold Node.drainLoop
    simp only
    rw [if_neg hi]
    exact ih s (i + 1) (fun o h1 h2 => h o (by omega) (by omega))

lemma drainLoop_stop {α : Type} (s : State α) (node : Nat) (i fuel j : Nat)
    (hij : i ≤ j) (hj : j < i + fuel)
    (hjr : slotState s node j &&& READING = 0)
    (hbefore : ∀ o, i ≤ o → o < j → slotState s node o &&& READING ≠ 0) :
    Node.drainLoop s node i fuel
      = (orState s node j DRAINING, [Ev.orState node j DRAINING]) := by
  induction fuel generalizing s i with
  | zero => omega
  | succ fuel ih =>
    by_cases hi : i = j
    · subst hi
      unfold Node.drainLoop
      simp only
      rw [if_pos hjr, if_pos hjr]
    · have hlt : i < j := by omega
      have hi : slotState s node i &&& READING ≠ 0 := hbefore i (Nat.le_refl i) hlt
      unfold Node.drainLoop
      simp only
      rw [if_neg hi]
      exact ih s (i + 1) (by omega) (by omega) hjr
        (fun o h1 h2 => hbefore o (by omega) h2)

lemma NODE_SIZE_eq : NODE_SIZE = 8 := rfl

lemma NODE_CAPACITY_eq : NODE_CAPACITY = 7 := rfl

lemma MARK_BIT_SHIFT_eq : MARK_BIT_SHIFT = 1 := rfl

lemma MARK_BIT_eq : MARK_BIT = 1 := rfl

lemma USIZE_eq : USIZE = 2 ^ 64 := rfl

lemma lor_one_of_even (n : Nat) (h : n % 2 = 0) : n ||| 1 = n + 1 := by
  have h1 : n = 2 * (n / 2) := by omega
  rw [h1, two_mul_lor_one]

lemma and_mask_clear (n : Nat) (h : n < USIZE) : n &&& (USIZE - 2) = 2 * (n / 2) := by
  have h2 := and_not_mark (n / 2) (n % 2) (by rw [USIZE_eq] at h; omega) (by omega)
  have h1 : 2 * (n / 2) + n % 2 = n := by omega
  rw [h1] at h2
  exact h2

/-- Every successful `pop` branch of the CAS-`Ok` path returns an item:
the `None` result can only come from the empty-queue check. -/
lemma popCommit_some_item {α : Type} {s : State α} {a b c d : Nat}
    {r : Option α} {s' : State α} {tr : List Ev}
    (h : Inner.popCommit s a b c d = some (r, s', tr)) : ∃ x, r = some x := by
  unfold Inner.popCommit at h
  simp only at h
  repeat' split at h
  all_goals first
    | exact Option.noConfusion h
    | (injection h with h1; injection h1 with h2 h3; exact ⟨_, h2.symm⟩)

/-! ### Frame lemmas: which state components each primitive touches -/

@[simp] lemma updateNode_head {α : Type} (s : State α) (j : Nat) (f : Node α → Node α) :
    (updateNode s j f).head = s.head := rfl

@[simp] lemma updateNode_tail {α : Type} (s : State α) (j : Nat) (f : Node α → Node α) :
    (updateNode s j f).tail = s.tail := rfl

@[simp] lemma updateNode_fresh {α : Type} (s : State α) (j : Nat) (f : Node α → Node α) :
    (updateNode s j f).fresh = s.fresh := rfl

@[simp] lemma updateNode_freed {α : Type} (s : State α) (j : Nat) (f : Node α → Node α) :
    (updateNode s j f).freed = s.freed := rfl

@[simp] lemma freeNode_head {α : Type} (s : State α) (j : Nat) :
    (freeNode s j).head = s.head := rfl

@[simp] lemma freeNode_tail {α : Type} (s : State α) (j : Nat) :
    (freeNode s j).tail = s.tail := rfl

@[simp] lemma freeNode_fresh {α : Type} (s : State α) (j : Nat) :
    (freeNode s j).fresh = s.fresh := rfl

@[simp] lemma orState_head {α : Type} (s : State α) (j o g : Nat) :
    (orState s j o g).head = s.head := rfl

@[simp] lemma orState_tail {α : Type} (s : State α) (j o g : Nat) :
    (orState s j o g).tail = s.tail := rfl

@[simp] lemma orState_freed {α : Type} (s : State α) (j o g : Nat) :
    (orState s j o g).freed = s.freed := rfl

@[simp] lemma writeItem_head {α : Type} (s : State α) (j o : Nat) (x : α) :
    (writeItem s j o x).head = s.head := rfl

@[simp] lemma writeItem_tail {α : Type} (s : State α) (j o : Nat) (x : α) :
    (writeItem s j o x).tail = s.tail := rfl

@[simp] lemma storeNext_head {α : Type} (s : State α) (j : Nat) (nx : Option Nat) :
    (storeNext s j nx).head = s.head := rfl

@[simp] lemma storeNext_tail {α : Type} (s : State α) (j : Nat) (nx : Option Nat) :
    (storeNext s j nx).tail = s.tail := rfl

lemma drainLoop_frame {α : Type} (s : State α) (node i fuel : Nat) :
    (Node.drainLoop s node i fuel).1.head = s.head
      ∧ (Node.drainLoop s node i fuel).1.tail = s.tail
      ∧ (Node.drainLoop s node i fuel).1.fresh = s.fresh := by
  induction fuel generalizing s i with
  | zero => exact ⟨rfl, rfl, rfl⟩
  | succ fuel ih =>
    unfold Node.drainLoop
    simp only
    split
    · exact ⟨rfl, rfl, rfl⟩
    · exact ih s (i + 1)

lemma drain_frame {α : Type} (s : State α) (node start : Nat) :
    (Node.drain s node start).1.head = s.head
      ∧ (Node.drain s node start).1.tail = s.tail
      ∧ (Node.drain s node start).1.fresh = s.fresh :=
  drainLoop_frame s node start (NODE_CAPACITY - 1 - start)

/-! ### Head-index effect of the pop commit path -/

lemma popCommit_head_index {α : Type} {s : State α} {hi hn off nhi : Nat}
    {r : Option α} {s' : State α} {tr : List Ev}
    (h : Inner.popCommit s hi hn off nhi = some (r, s', tr)) :
    (¬ off + 1 = NODE_CAPACITY ∧ s'.head.index = nhi)
    ∨ (off + 1 = NODE_CAPACITY ∧ ∃ m, m ≤ 1
        ∧ s'.head.index = (wrap ((nhi &&& (USIZE - 2)) + (1 <<< MARK_BIT_SHIFT))) ||| m) := by
  unfold Inner.popCommit at h
  simp only at h
  split at h
  · exact Option.noConfusion h
  · rename_i trans s2 ev2 heq
    -- analyse how s2 was built by the transition step
    have hs2 : (off + 1 = NODE_CAPACITY
          ∧ ∃ m, m ≤ 1
            ∧ s2.head.index = (wrap ((nhi &&& (USIZE - 2)) + (1 <<< MARK_BIT_SHIFT))) ||| m)
        ∨ (¬ off + 1 = NODE_CAPACITY ∧ s2.head.index = nhi) := by
      split at heq
      · rename_i hoff
        split at heq
        · exact Option.noConfusion heq
        · injection heq with h1
          injection h1 with h2 h3
          left
          refine ⟨hoff, ?_⟩
          rw [← h2]
          split
          · exact ⟨1, by omega, rfl⟩
          · exact ⟨0, by omega, by simp⟩
      · rename_i hoff
        injection heq with h1
        injection h1 with h2 h3
        exact Or.inr ⟨hoff, by rw [← h2]⟩
    -- in every success leaf the head cursor of s' is that of s2
    have hhead : s'.head = s2.head := by
      split at h
      · exact Option.noConfusion h
      · split at h
        · exact Option.noConfusion h
        · split at h
          · injection h with h1
            injection h1 with h2 h3
            injection h3 with h4 h5
            rw [← h4]
            exact (drain_frame s2 hn 0).1
          · split at h
            · injection h with h1
              injection h1 with h2 h3
              injection h3 with h4 h5
              rw [← h4]
              exact (drain_frame (orState s2 hn off READING) hn (off + 1)).1
            · injection h with h1
              injection h1 with h2 h3
              injection h3 with h4 h5
              rw [← h4]
              rfl
    rcases hs2 with ⟨hoff, m, hm, hidx⟩ | ⟨hoff, hidx⟩
    · right
      exact ⟨hoff, m, hm, by rw [hhead, hidx]⟩
    · left
      exact ⟨hoff, by rw [hhead, hidx]⟩

/-- C9: whenever `pop` returns the empty sentinel `None`, it has performed
no write at all: the returned state is the input state unchanged, and the
write trace is empty — in particular the `None` return happens before the
head-index compare-and-exchange is attempted. -/
theorem empty_pop_readonly {α : Type} {s s' : State α} {tr : List Ev}
    (h : Inner.pop s = some (none, s', tr)) : s' = s ∧ tr = [] := by
  unfold Inner.pop at h
  simp only at h
  split at h
  · exact Option.noConfusion h
  · split at h
    · split at h
      · injection h with h1
        injection h1 with h2 h3
        injection h3 with h4 h5
        exact ⟨h4.symm, h5.symm⟩
      · obtain ⟨x, hx⟩ := popCommit_some_item h
        exact Option.noConfusion hx
    · obtain ⟨x, hx⟩ := popCommit_some_item h
      exact Option.noConfusion hx

/-- C9 witness: on a fresh queue, `pop` returns `None` with the state
unchanged and an empty write trace. -/
theorem empty_pop_readonly_witness :
    ∃ (s' : State Nat) (tr : List Ev),
      Inner.pop (Queue.new : State Nat) = some (none, s', tr)
        ∧ s' = Queue.new ∧ tr = [] := by
  have h : Inner.pop (Queue.new : State Nat) = some (none, Queue.new, []) := by decide
  exact ⟨_, _, h, (empty_pop_readonly h).1, (empty_pop_readonly h).2⟩

/-- C10: `Queue::default()` constructs exactly the state of `Queue::new()`:
an empty queue whose head and tail cursors both hold index 0 and point to
the same freshly allocated node; being equal states, every subsequent
operation behaves identically on the two. -/
theorem default_eq_new {α : Type} :
    (Queue.defaultState : State α) = Queue.new
    ∧ (Queue.new : State α).head.index = 0
    ∧ (Queue.new : State α).tail.index = 0
    ∧ (Queue.new : State α).head.node = (Queue.new : State α).tail.node
    ∧ lookupNode (Queue.new : State α) ((Queue.new : State α).head.node)
        = some Node.UNINIT :=
  ⟨rfl, rfl, rfl, rfl, rfl⟩

/-- C3: the spec requires the final drop of the last handle to walk the
node chain, run the destructor of every still-enqueued payload and free
the nodes; the source defines no `Drop` impl for `Queue`/`Inner`, so the
derived drop (`Inner.dropLast`) leaves the heap untouched: after pushing
one item and dropping the queue, the node and its `FILLED`, unconsumed
payload are still allocated and no free was ever recorded. -/
theorem final_drop_leaks :
    ∃ (s1 : State Nat) (tr : List Ev),
      Inner.push (Queue.new : State Nat) 42 = some (s1, tr)
      ∧ Inner.dropLast s1 = s1
      ∧ (Inner.dropLast s1).heap = s1.heap
      ∧ (Inner.dropLast s1).freed = []
      ∧ s1.heap.length = 1
      ∧ slotState s1 0 0 = FILLED
      ∧ slotItem s1 0 0 = some 42 := by
  refine ⟨_, _, rfl, rfl, rfl, ?_, ?_, ?_, ?_⟩ <;> decide

/-- C5 counterexample: a node's container comprises `NODE_CAPACITY` (= K)
slots, not `K + 1` as the claim states; there is no slot at offset `K` at
all. -/
theorem container_size_counterexample :
    (Node.UNINIT : Node Nat).container.length = NODE_CAPACITY
    ∧ ¬ (Node.UNINIT : Node Nat).container.length = NODE_CAPACITY + 1 := by
  decide

/-- C5 (amended): a node's container comprises exactly `K = NODE_CAPACITY`
slots while `NODE_SIZE = K + 1` counts the extra sentinel index; the
sentinel offset `K` addresses no slot and is never used by a successful
`push` or `pop`, whose claimed offsets are always below `K`. -/
theorem node_layout {α : Type} :
    (Node.UNINIT : Node α).container.length = NODE_CAPACITY
    ∧ NODE_SIZE = NODE_CAPACITY + 1
    ∧ (∀ (s : State α) (x : α) (s' : State α) (tr : List Ev),
        Inner.push s x = some (s', tr) →
          (s.tail.index >>> MARK_BIT_SHIFT) % NODE_SIZE < NODE_CAPACITY)
    ∧ (∀ (s : State α) (r : Option α) (s' : State α) (tr : List Ev),
        Inner.pop s = some (r, s', tr) →
          (s.head.index >>> MARK_BIT_SHIFT) % NODE_SIZE < NODE_CAPACITY) := by
  refine ⟨by simp [Node.UNINIT], rfl, ?_, ?_⟩
  · intro s x s' tr h
    unfold Inner.push at h
    simp only at h
    split at h
    · exact Option.noConfusion h
    · rename_i hne
      simp only [NODE_SIZE_eq, NODE_CAPACITY_eq, MARK_BIT_SHIFT_eq] at hne ⊢
      omega
  · intro s r s' tr h
    unfold Inner.pop at h
    simp only at h
    split at h
    · exact Option.noConfusion h
    · rename_i hne
      simp only [NODE_SIZE_eq, NODE_CAPACITY_eq, MARK_BIT_SHIFT_eq] at hne ⊢
      omega

/-- C5 witness: the amended offset bounds hold on a concrete successful
push and a concrete successful pop. -/
theorem node_layout_witness :
    (0 >>> MARK_BIT_SHIFT) % NODE_SIZE < NODE_CAPACITY
    ∧ (0 >>> MARK_BIT_SHIFT) % NODE_SIZE < NODE_CAPACITY := by
  constructor
  · have hs : (Inner.push (Queue.new : State Nat) 5).isSome = true := by decide
    have h := (Option.some_get hs).symm
    exact (node_layout (α := Nat)).2.2.1 Queue.new 5 _ _ h
  · have h : Inner.pop (Queue.new : State Nat) = some (none, Queue.new, []) := by decide
    exact (node_layout (α := Nat)).2.2.2 Queue.new none Queue.new [] h

/-- Arithmetic of one head-index advance: `nhi` is the committed new head
index (`head_index + (1<<1)`, possibly with `MARK_BIT` or-ed in when the
old index was even), so its sequence number is one past the old one; and
the node-transition index formula lands two past the old one. -/
lemma seq_step (hi nhi : Nat) (hb : hi + 4 < USIZE)
    (hnhi : nhi = hi + 2 ∨ (nhi = hi + 3 ∧ hi % 2 = 0)) :
    nhi >>> MARK_BIT_SHIFT = hi >>> MARK_BIT_SHIFT + 1
    ∧ ∀ m, m ≤ 1 →
      ((wrap ((nhi &&& (USIZE - 2)) + (1 <<< MARK_BIT_SHIFT))) ||| m) >>> MARK_BIT_SHIFT
        = hi >>> MARK_BIT_SHIFT + 2 := by
  rw [USIZE_eq] at hb
  have e1 : (1 : Nat) <<< MARK_BIT_SHIFT = 2 := rfl
  have hlt : nhi < USIZE := by rw [USIZE_eq]; omega
  have hmask : nhi &&& (USIZE - 2) = 2 * (nhi / 2) := and_mask_clear nhi hlt
  have hbase : wrap (2 * (nhi / 2) + 2) = 2 * (nhi / 2) + 2 := by
    unfold wrap USIZE; omega
  constructor
  · rw [MARK_BIT_SHIFT_eq, shr_one, shr_one]
    omega
  · intro m hm
    rw [e1, hmask, hbase]
    have heven : (2 * (nhi / 2)) % 2 = 0 := by omega
    rcases Nat.le_one_iff_eq_zero_or_eq_one.mp hm with hm0 | hm1
    · subst hm0
      simp only [Nat.or_zero]
      rw [MARK_BIT_SHIFT_eq, shr_one, shr_one]
      omega
    · subst hm1
      rw [lor_one_of_even _ (by omega)]
      rw [MARK_BIT_SHIFT_eq, shr_one, shr_one]
      omega

/-- C4 counterexample: the seventh push (the one that claims the last data
slot of the first node) moves `tail.index` from 12 to 16, an increase of
`2 << 1`, not `1 << 1` as the claim states for all successful pushes. -/
theorem push_increment_counterexample :
    ∃ (s6 s7 : State Nat) (tr : List Ev),
      pushAll (Queue.new : State Nat) (List.range 6) = some s6
      ∧ Inner.push s6 6 = some (s7, tr)
      ∧ s6.tail.index = 12
      ∧ s7.tail.index = 16
      ∧ ¬ s7.tail.index = s6.tail.index + (1 <<< MARK_BIT_SHIFT) := by
  refine ⟨_, _, _, rfl, rfl, ?_, ?_, ?_⟩ <;> decide

/-- C4 (amended): a successful push increments `tail.index` by `1 << 1`,
except the push that claims the last data slot of a node, which increments
it by `2 << 1` (its CAS adds `1 << 1` and its successor installation adds
another `1 << 1` to skip the sentinel offset); a successful pop advances
the head sequence number (`head.index >> 1`) by 1, except the pop that
consumes the last data slot of a node, which advances it by 2, likewise
skipping the sentinel. -/
theorem cursor_increment {α : Type} (s : State α) :
    (∀ (x : α) (s' : State α) (tr : List Ev),
      Inner.push s x = some (s', tr) → s.tail.index + 4 < USIZE →
        s'.tail.index = s.tail.index
          + (if (s.tail.index >>> MARK_BIT_SHIFT) % NODE_SIZE + 1 = NODE_CAPACITY
             then 2 * (1 <<< MARK_BIT_SHIFT) else 1 <<< MARK_BIT_SHIFT))
    ∧ (∀ (x : α) (s' : State α) (tr : List Ev),
      Inner.pop s = some (some x, s', tr) → s.head.index + 4 < USIZE →
        s'.head.index >>> MARK_BIT_SHIFT = s.head.index >>> MARK_BIT_SHIFT
          + (if (s.head.index >>> MARK_BIT_SHIFT) % NODE_SIZE + 1 = NODE_CAPACITY
             then 2 else 1)) := by
  have e1 : (1 : Nat) <<< MARK_BIT_SHIFT = 2 := rfl
  constructor
  · intro x s' tr h hb
    rw [USIZE_eq] at hb
    unfold Inner.push at h
    simp only at h
    split at h
    · exact Option.noConfusion h
    · split at h
      · rename_i hne hoff
        injection h with h1
        injection h1 with h2 h3
        rw [if_pos hoff, ← h2]
        simp only [orState_tail, writeItem_tail, storeNext_tail]
        simp only [e1]
        unfold wrap USIZE
        omega
      · rename_i hne hoff
        injection h with h1
        injection h1 with h2 h3
        rw [if_neg hoff, ← h2]
        simp only [orState_tail, writeItem_tail]
        simp only [e1]
        unfold wrap USIZE
        omega
  · intro x s' tr h hb
    unfold Inner.pop at h
    simp only at h
    split at h
    · exact Option.noConfusion h
    · rename_i hne
      have hcases :
          (¬ (s.head.index >>> MARK_BIT_SHIFT) % NODE_SIZE + 1 = NODE_CAPACITY
              ∧ ∃ nhi, (nhi = s.head.index + 2
                  ∨ (nhi = s.head.index + 3 ∧ s.head.index % 2 = 0))
                ∧ s'.head.index = nhi)
          ∨ ((s.head.index >>> MARK_BIT_SHIFT) % NODE_SIZE + 1 = NODE_CAPACITY
              ∧ ∃ nhi, (nhi = s.head.index + 2
                  ∨ (nhi = s.head.index + 3 ∧ s.head.index % 2 = 0))
                ∧ ∃ m, m ≤ 1 ∧ s'.head.index
                    = (wrap ((nhi &&& (USIZE - 2)) + (1 <<< MARK_BIT_SHIFT))) ||| m) := by
        have hA : wrap (s.head.index + (1 <<< MARK_BIT_SHIFT)) = s.head.index + 2 := by
          rw [e1]; unfold wrap; rw [USIZE_eq] at hb ⊢; omega
        split at h
        · rename_i hmark
          split at h
          · injection h with h1
            injection h1 with h2 h3
            exact Option.noConfusion h2
          · split at h
            · rename_i hdiff
              rcases popCommit_head_index h with ⟨hoff, hidx⟩ | ⟨hoff, m, hm, hidx⟩
              · refine Or.inl ⟨hoff, _, Or.inr ⟨?_, ?_⟩, hidx⟩
                · rw [hA, MARK_BIT_eq,
                    lor_one_of_even _ (by rw [hA, and_mark] at hmark; omega)]
                · rw [hA, and_mark] at hmark; omega
              · refine Or.inr ⟨hoff, _, Or.inr ⟨?_, ?_⟩, m, hm, hidx⟩
                · rw [hA, MARK_BIT_eq,
                    lor_one_of_even _ (by rw [hA, and_mark] at hmark; omega)]
                · rw [hA, and_mark] at hmark; omega
            · rcases popCommit_head_index h with ⟨hoff, hidx⟩ | ⟨hoff, m, hm, hidx⟩
              · exact Or.inl ⟨hoff, _, Or.inl hA, hidx⟩
              · exact Or.inr ⟨hoff, _, Or.inl hA, m, hm, hidx⟩
        · rcases popCommit_head_index h with ⟨hoff, hidx⟩ | ⟨hoff, m, hm, hidx⟩
          · exact Or.inl ⟨hoff, _, Or.inl hA, hidx⟩
          · exact Or.inr ⟨hoff, _, Or.inl hA, m, hm, hidx⟩
      rcases hcases with ⟨hoff, nhi, hnhi, hidx⟩ | ⟨hoff, nhi, hnhi, m, hm, hidx⟩
      · rw [if_neg hoff, hidx]
        exact (seq_step s.head.index nhi hb hnhi).1
      · rw [if_pos hoff, hidx]
        exact (seq_step s.head.index nhi hb hnhi).2 m hm

/-- C4 witness: concrete instances of the amended increments — an ordinary
push adds `1 << 1` to `tail.index`, and an ordinary pop advances the head
sequence number by one. -/
theorem cursor_increment_witness :
    ∃ (s1 : State Nat) (tr : List Ev),
      Inner.push (Queue.new : State Nat) 9 = some (s1, tr)
      ∧ s1.tail.index = 0 + (1 <<< MARK_BIT_SHIFT)
      ∧ ∃ (s2 : State Nat) (tr2 : List Ev),
          Inner.pop s1 = some (some 9, s2, tr2)
          ∧ s2.head.index >>> MARK_BIT_SHIFT = 0 + 1 := by
  have hpush : Inner.push (Queue.new : State Nat) 9
      = some ((⟨⟨0, 0⟩, ⟨2, 0⟩,
          [(0, ⟨none, [⟨some 9, 1⟩, ⟨none, 0⟩, ⟨none, 0⟩, ⟨none, 0⟩,
            ⟨none, 0⟩, ⟨none, 0⟩, ⟨none, 0⟩]⟩)], 1, []⟩ : State Nat),
          [Ev.casTailIndex 0 2, Ev.writeItem 0 0, Ev.orState 0 0 FILLED]) := by
    decide
  have h1 := (cursor_increment (Queue.new : State Nat)).1 9 _ _ hpush (by decide)
  have hpop : Inner.pop (⟨⟨0, 0⟩, ⟨2, 0⟩,
          [(0, ⟨none, [⟨some 9, 1⟩, ⟨none, 0⟩, ⟨none, 0⟩, ⟨none, 0⟩,
            ⟨none, 0⟩, ⟨none, 0⟩, ⟨none, 0⟩]⟩)], 1, []⟩ : State Nat)
      = some (some 9,
          (⟨⟨2, 0⟩, ⟨2, 0⟩,
            [(0, ⟨none, [⟨some 9, 3⟩, ⟨none, 0⟩, ⟨none, 0⟩, ⟨none, 0⟩,
              ⟨none, 0⟩, ⟨none, 0⟩, ⟨none, 0⟩]⟩)], 1, []⟩ : State Nat),
          [Ev.casHeadIndex 0 2, Ev.orState 0 0 READING]) := by
    decide
  have h2 := (cursor_increment (⟨⟨0, 0⟩, ⟨2, 0⟩,
          [(0, ⟨none, [⟨some 9, 1⟩, ⟨none, 0⟩, ⟨none, 0⟩, ⟨none, 0⟩,
            ⟨none, 0⟩, ⟨none, 0⟩, ⟨none, 0⟩]⟩)], 1, []⟩ : State Nat)).2
      9 _ _ hpop (by decide)
  refine ⟨_, _, hpush, ?_, _, _, hpop, ?_⟩
  · rw [h1]; decide
  · rw [h2]; decide

/-- C6: for every node pointer and every start offset, `drain` inspects the
slots at offsets `start` up to `NODE_CAPACITY - 2` in order (offset
`NODE_CAPACITY - 1` is outside every condition below): if it reaches a
first slot whose state lacks `READING`, it or-s `DRAINING` into exactly
that slot and returns without freeing the node (freed log and heap size
unchanged); if every inspected slot had `READING` set, it frees the
node. -/
theorem drain_spec {α : Type} (s : State α) (node start : Nat) :
    ((∀ o, start ≤ o → o < NODE_CAPACITY - 1 → slotState s node o &&& READING ≠ 0) →
      Node.drain s node start = (freeNode s node, [Ev.freeNode node]))
    ∧ (∀ j, start ≤ j → j < NODE_CAPACITY - 1 →
        slotState s node j &&& READING = 0 →
        (∀ o, start ≤ o → o < j → slotState s node o &&& READING ≠ 0) →
        Node.drain s node start
            = (orState s node j DRAINING, [Ev.orState node j DRAINING])
          ∧ (orState s node j DRAINING).freed = s.freed
          ∧ (orState s node j DRAINING).heap.length = s.heap.length) := by
  constructor
  · intro h
    exact drainLoop_free s node start _ (fun o h1 h2 => h o h1 (by omega))
  · intro j h1 h2 h3 h4
    refine ⟨drainLoop_stop s node start _ j h1 (by omega) h3 h4, rfl, ?_⟩
    simp [orState, updateNode]

/-- C6 witness: on a node whose first six slots are all in `READING` state
the drain frees the node, and on a node whose first slot lacks `READING`
the drain stamps `DRAINING` there and keeps the node. -/
theorem drain_spec_witness :
    Node.drain (⟨⟨0, 0⟩, ⟨0, 0⟩,
        [(0, ⟨none, [⟨none, 3⟩, ⟨none, 3⟩, ⟨none, 3⟩, ⟨none, 3⟩,
          ⟨none, 3⟩, ⟨none, 3⟩, ⟨none, 3⟩]⟩)], 1, []⟩ : State Nat) 0 0
      = (freeNode (⟨⟨0, 0⟩, ⟨0, 0⟩,
        [(0, ⟨none, [⟨none, 3⟩, ⟨none, 3⟩, ⟨none, 3⟩, ⟨none, 3⟩,
          ⟨none, 3⟩, ⟨none, 3⟩, ⟨none, 3⟩]⟩)], 1, []⟩ : State Nat) 0,
        [Ev.freeNode 0])
    ∧ Node.drain (⟨⟨0, 0⟩, ⟨0, 0⟩,
        [(0, ⟨none, [⟨none, 1⟩, ⟨none, 3⟩, ⟨none, 3⟩, ⟨none, 3⟩,
          ⟨none, 3⟩, ⟨none, 3⟩, ⟨none, 3⟩]⟩)], 1, []⟩ : State Nat) 0 0
      = (orState (⟨⟨0, 0⟩, ⟨0, 0⟩,
        [(0, ⟨none, [⟨none, 1⟩, ⟨none, 3⟩, ⟨none, 3⟩, ⟨none, 3⟩,
          ⟨none, 3⟩, ⟨none, 3⟩, ⟨none, 3⟩]⟩)], 1, []⟩ : State Nat) 0 0 DRAINING,
        [Ev.orState 0 0 DRAINING]) := by
  constructor
  · refine (drain_spec _ 0 0).1 ?_
    intro o h1 h2
    rw [NODE_CAPACITY_eq] at h2
    interval_cases o <;> decide
  · exact (((drain_spec _ 0 0).2 0 (Nat.le_refl 0)
      (by rw [NODE_CAPACITY_eq]; omega) (by decide)
      (fun o h1 h2 => absurd h2 (by omega))).1)

/-! ### Slot-state monotonicity machinery (C7) -/

/-- `a`'s set bits are all set in `b`. -/
def bitsLE (a b : Nat) : Prop := a &&& b = a

lemma bitsLE_refl (a : Nat) : bitsLE a a := Nat.and_self a

lemma bitsLE_or (a b : Nat) : bitsLE a (a ||| b) := and_lor_self a b

lemma bitsLE_trans {a b c : Nat} (h1 : bitsLE a b) (h2 : bitsLE b c) :
    bitsLE a c := by
  unfold bitsLE at h1 h2 ⊢
  refine Nat.eq_of_testBit_eq fun i => ?_
  have t1 := congrArg (fun n => n.testBit i) h1
  have t2 := congrArg (fun n => n.testBit i) h2
  simp only [Nat.testBit_and] at t1 t2 ⊢
  cases ha : a.testBit i <;> cases hb : b.testBit i <;> cases hc : c.testBit i <;>
    simp_all

/-- Every slot state of `s` survives, bitwise, into `s'` wherever the node
is present in both heaps. -/
def slotsMono {α : Type} (s s' : State α) : Prop :=
  ∀ id n n', lookupNode s id = some n → lookupNode s' id = some n' →
    ∀ o, bitsLE (n.container.getD o Slot.UNINIT).state
      (n'.container.getD o Slot.UNINIT).state

lemma slotsMono_refl {α : Type} (s : State α) : slotsMono s s := by
  intro id n n' hn hn' o
  rw [hn] at hn'
  cases hn'
  exact bitsLE_refl _

lemma slotsMono_of_heap_eq {α : Type} {s s' : State α} (h : s'.heap = s.heap) :
    slotsMono s s' := by
  intro id n n' hn hn' o
  unfold lookupNode at hn hn'
  rw [h, hn] at hn'
  cases hn'
  exact bitsLE_refl _

lemma slotsMono_trans {α : Type} {s1 s2 s3 : State α}
    (h12 : slotsMono s1 s2) (h23 : slotsMono s2 s3)
    (hmid : ∀ id, (lookupNode s1 id).isSome = true → (lookupNode s2 id).isSome = true) :
    slotsMono s1 s3 := by
  intro id n n' hn hn' o
  have hm := hmid id (by rw [hn]; rfl)
  obtain ⟨n2, hn2⟩ := Option.isSome_iff_exists.mp hm
  exact bitsLE_trans (h12 id n n2 hn hn2 o) (h23 id n2 n' hn2 hn' o)

/-- An in-place node update whose effect on every slot state is a bitwise
increase is monotonic. -/
lemma slotsMono_updateNode {α : Type} (s : State α) (j : Nat) (f : Node α → Node α)
    (hf : ∀ n o, bitsLE (n.container.getD o Slot.UNINIT).state
      ((f n).container.getD o Slot.UNINIT).state) :
    slotsMono s (updateNode s j f) := by
  intro id n n' hn hn' o
  rw [lookupNode_updateNode] at hn'
  split at hn'
  · rw [hn] at hn'
    cases hn'
    exact hf n o
  · rw [hn] at hn'
    cases hn'
    exact bitsLE_refl _

lemma setSlot_state_mono {α : Type} (n : Node α) (off : Nat) (g : Slot α → Slot α)
    (hg : ∀ sl, bitsLE (Slot.state sl) (Slot.state (g sl))) (o : Nat) :
    bitsLE (n.container.getD o Slot.UNINIT).state
      ((n.setSlot off g).container.getD o Slot.UNINIT).state := by
  unfold Node.setSlot
  simp only
  by_cases ho : off = o
  · subst ho
    by_cases hlen : off < n.container.length
    · rw [getD_set_self _ _ _ _ hlen]
      exact hg _
    · rw [List.set_eq_of_length_le (by omega)]
      exact bitsLE_refl _
  · rw [getD_set_ne _ _ _ _ _ ho]
    exact bitsLE_refl _

lemma slotsMono_orState {α : Type} (s : State α) (j o flag : Nat) :
    slotsMono s (orState s j o flag) := by
  refine slotsMono_updateNode s j _ (fun n o' => ?_)
  exact setSlot_state_mono n o _ (fun sl => bitsLE_or _ _) o'

lemma slotsMono_writeItem {α : Type} (s : State α) (j o : Nat) (x : α) :
    slotsMono s (writeItem s j o x) := by
  refine slotsMono_updateNode s j _ (fun n o' => ?_)
  exact setSlot_state_mono n o (fun sl => { sl with item := some x })
    (fun sl => bitsLE_refl _) o'

lemma slotsMono_storeNext {α : Type} (s : State α) (j : Nat) (nx : Option Nat) :
    slotsMono s (storeNext s j nx) := by
  refine slotsMono_updateNode s j _ (fun n o' => ?_)
  exact bitsLE_refl _

lemma slotsMono_freeNode {α : Type} (s : State α) (j : Nat) :
    slotsMono s (freeNode s j) := by
  intro id n n' hn hn' o
  rw [lookupNode_freeNode] at hn'
  split at hn'
  · exact Option.noConfusion hn'
  · rw [hn] at hn'
    cases hn'
    exact bitsLE_refl _

lemma slotsMono_append {α : Type} (s s' : State α) (l2 : List (Nat × Node α))
    (hh : s'.heap = s.heap ++ l2) : slotsMono s s' := by
  intro id n n' hn hn' o
  unfold lookupNode at hn hn'
  rw [hh, List.find?_append] at hn'
  cases hfind : s.heap.find? (fun q => q.1 == id) with
  | none => rw [hfind] at hn; exact Option.noConfusion hn
  | some q =>
    rw [hfind] at hn hn'
    rw [Option.or_some ..] at hn'
    rw [hn] at hn'
    cases hn'
    exact bitsLE_refl _

/-- The node an update leaves in the heap survives the update. -/
lemma isSome_updateNode {α : Type} (s : State α) (j : Nat) (f : Node α → Node α)
    (id : Nat) (h : (lookupNode s id).isSome = true) :
    (lookupNode (updateNode s j f) id).isSome = true := by
  rw [lookupNode_updateNode]
  obtain ⟨n, hn⟩ := Option.isSome_iff_exists.mp h
  split
  · rw [hn]; rfl
  · rw [hn]; rfl

lemma isSome_append {α : Type} (s s' : State α) (l2 : List (Nat × Node α))
    (hh : s'.heap = s.heap ++ l2)
    (id : Nat) (h : (lookupNode s id).isSome = true) :
    (lookupNode s' id).isSome = true := by
  obtain ⟨n, hn⟩ := Option.isSome_iff_exists.mp h
  unfold lookupNode at hn ⊢
  rw [hh, List.find?_append]
  cases hfind : s.heap.find? (fun q => q.1 == id) with
  | none => rw [hfind] at hn; exact Option.noConfusion hn
  | some q => rw [Option.or_some ..]; rfl

lemma isSome_heap_eq {α : Type} {s s' : State α} (hh : s'.heap = s.heap)
    (id : Nat) (h : (lookupNode s id).isSome = true) :
    (lookupNode s' id).isSome = true := by
  unfold lookupNode at h ⊢
  rw [hh]
  exact h

/-- `drain` only ever or-s flags into slot states or frees the node:
slot states grow bitwise. -/
lemma slotsMono_drainLoop {α : Type} (s : State α) (node i fuel : Nat) :
    slotsMono s (Node.drainLoop s node i fuel).1 := by
  induction fuel generalizing s i with
  | zero => exact slotsMono_freeNode s node
  | succ fuel ih =>
    unfold Node.drainLoop
    simp only
    split
    · exact slotsMono_orState s node i DRAINING
    · exact ih s (i + 1)

lemma slotsMono_drain {α : Type} (s : State α) (node start : Nat) :
    slotsMono s (Node.drain s node start).1 :=
  slotsMono_drainLoop s node start (NODE_CAPACITY - 1 - start)

/-- The committed pop path only or-s flags into slot states (READING on
the consumed slot, DRAINING during a drain) or frees a node. -/
lemma slotsMono_popCommit {α : Type} {s : State α} {a b c d : Nat}
    {r : Option α} {s' : State α} {tr : List Ev}
    (h : Inner.popCommit s a b c d = some (r, s', tr)) : slotsMono s s' := by
  unfold Inner.popCommit at h
  simp only at h
  split at h
  · exact Option.noConfusion h
  · rename_i trans s2 ev2 heq
    have hs2 : s2.heap = s.heap := by
      split at heq
      · split at heq
        · exact Option.noConfusion heq
        · injection heq with h1
          injection h1 with h2 h3
          rw [← h2]
      · injection heq with h1
        injection h1 with h2 h3
        rw [← h2]
    have m0 : slotsMono s s2 := slotsMono_of_heap_eq hs2
    have p0 : ∀ id, (lookupNode s id).isSome = true →
        (lookupNode s2 id).isSome = true := fun id hid => isSome_heap_eq hs2 id hid
    split at h
    · exact Option.noConfusion h
    · split at h
      · exact Option.noConfusion h
      · split at h
        · injection h with h1
          injection h1 with h2 h3
          injection h3 with h4 h5
          rw [← h4]
          exact slotsMono_trans m0 (slotsMono_drain s2 b 0) p0
        · split at h
          · injection h with h1
            injection h1 with h2 h3
            injection h3 with h4 h5
            rw [← h4]
            refine slotsMono_trans m0 (slotsMono_trans (slotsMono_orState s2 b c READING)
              (slotsMono_drain (orState s2 b c READING) b (c + 1))
              (fun id hid => isSome_updateNode s2 b _ id hid)) p0
          · injection h with h1
            injection h1 with h2 h3
            injection h3 with h4 h5
            rw [← h4]
            exact slotsMono_trans m0 (slotsMono_orState s2 b c READING) p0

/-- C7: across every successful `push` and every `pop`, each slot's state
word only ever gains bits — every bit set before the operation is still
set after it for every slot of every node present in both heaps; every
state mutation in the source is a `fetch_or` of a flag. -/
theorem slot_state_monotonic {α : Type} {s s' : State α}
    (h : (∃ (x : α) (tr : List Ev), Inner.push s x = some (s', tr))
      ∨ (∃ (r : Option α) (tr : List Ev), Inner.pop s = some (r, s', tr))) :
    slotsMono s s' := by
  rcases h with ⟨x, tr, h⟩ | ⟨r, tr, h⟩
  · unfold Inner.push at h
    simp only at h
    split at h
    · exact Option.noConfusion h
    · split at h
      · injection h with h1
        injection h1 with h2 h3
        rw [← h2]
        refine slotsMono_trans (slotsMono_trans (slotsMono_trans
          (slotsMono_append s _ [(s.fresh, Node.UNINIT)] rfl)
          (slotsMono_storeNext _ s.tail.node (some s.fresh)) ?_)
          (slotsMono_writeItem _ s.tail.node _ x) ?_)
          (slotsMono_orState _ s.tail.node _ FILLED) ?_
        · exact fun id hid => isSome_append s _ [(s.fresh, Node.UNINIT)] rfl id hid
        · exact fun id hid => isSome_updateNode _ _ _ id
            (isSome_append s _ [(s.fresh, Node.UNINIT)] rfl id hid)
        · exact fun id hid => isSome_updateNode _ _ _ id
            (isSome_updateNode _ _ _ id
              (isSome_append s _ [(s.fresh, Node.UNINIT)] rfl id hid))
      · injection h with h1
        injection h1 with h2 h3
        rw [← h2]
        refine slotsMono_trans (slotsMono_trans
          (slotsMono_of_heap_eq rfl)
          (slotsMono_writeItem _ s.tail.node _ x) ?_)
          (slotsMono_orState _ s.tail.node _ FILLED) ?_
        · exact fun id hid => isSome_heap_eq rfl id hid
        · exact fun id hid => isSome_updateNode _ _ _ id (isSome_heap_eq rfl id hid)
  · unfold Inner.pop at h
    simp only at h
    split at h
    · exact Option.noConfusion h
    · split at h
      · split at h
        · injection h with h1
          injection h1 with h2 h3
          injection h3 with h4 h5
          rw [← h4]
          exact slotsMono_refl s
        · split at h
          · exact slotsMono_popCommit h
          · exact slotsMono_popCommit h
      · exact slotsMono_popCommit h

/-- C7 witness: slot monotonicity instantiated on a concrete successful
push from the fresh queue. -/
theorem slot_state_monotonic_witness :
    slotsMono (Queue.new : State Nat)
      (⟨⟨0, 0⟩, ⟨2, 0⟩,
        [(0, ⟨none, [⟨some 9, 1⟩, ⟨none, 0⟩, ⟨none, 0⟩, ⟨none, 0⟩,
          ⟨none, 0⟩, ⟨none, 0⟩, ⟨none, 0⟩]⟩)], 1, []⟩ : State Nat) :=
  slot_state_monotonic (Or.inl ⟨9,
    [Ev.casTailIndex 0 2, Ev.writeItem 0 0, Ev.orState 0 0 FILLED], by decide⟩)

/-! ### Successor-pointer lemmas (C8) -/

lemma lookupNode_of_bounded {α : Type} (s : State α) (id : Nat)
    (h : ∀ p ∈ s.heap, p.1 < id) : lookupNode s id = none := by
  unfold lookupNode
  rw [List.find?_eq_none.mpr]
  · rfl
  · intro p hp
    have := h p hp
    simp only [beq_iff_eq]
    omega

lemma nextOf_setSlot {α : Type} (s : State α) (j o : Nat) (g : Slot α → Slot α)
    (id : Nat) :
    nextOf (updateNode s j (fun n => n.setSlot o g)) id = nextOf s id := by
  unfold nextOf
  rw [lookupNode_updateNode]
  split
  · cases hx : lookupNode s id <;> simp [Node.setSlot]
  · rfl

lemma nextOf_writeItem {α : Type} (s : State α) (j o : Nat) (x : α) (id : Nat) :
    nextOf (writeItem s j o x) id = nextOf s id :=
  nextOf_setSlot s j o _ id

lemma nextOf_orState {α : Type} (s : State α) (j o flag : Nat) (id : Nat) :
    nextOf (orState s j o flag) id = nextOf s id :=
  nextOf_setSlot s j o _ id

lemma nextOf_storeNext_self {α : Type} (s : State α) (j : Nat) (nx : Option Nat)
    (h : (lookupNode s j).isSome = true) :
    nextOf (storeNext s j nx) j = nx := by
  unfold nextOf storeNext
  rw [lookupNode_updateNode, if_pos rfl]
  obtain ⟨n, hn⟩ := Option.isSome_iff_exists.mp h
  rw [hn]
  rfl

lemma lookupNode_append_last {α : Type} (s s' : State α) (id : Nat) (n : Node α)
    (hh : s'.heap = s.heap ++ [(id, n)])
    (h : lookupNode s id = none) : lookupNode s' id = some n := by
  unfold lookupNode at h ⊢
  rw [hh, List.find?_append]
  cases hfind : s.heap.find? (fun q => q.1 == id) with
  | none => simp [List.find?]
  | some q => rw [hfind] at h; exact Option.noConfusion h

/-- C8: exactly when the claimed offset satisfies `offset + 1 =
NODE_CAPACITY`, push performs the successor installation — the write trace
is precisely: index CAS, allocation of the fresh node `s.fresh` (absent
from the pre-heap), store of it into `tail.node`, `fetch_add` of `1 << 1`
on `tail.index`, store of it into the old node's `next`, then the payload
write and `FILLED` — in that order; for any other claimed offset neither
an allocation nor any successor pointer write occurs and every node's
`next` is unchanged. -/
theorem push_successor_install {α : Type} (s : State α) (x : α)
    (s' : State α) (tr : List Ev)
    (h : Inner.push s x = some (s', tr))
    (hfresh : ∀ p ∈ s.heap, p.1 < s.fresh)
    (hnode : (lookupNode s s.tail.node).isSome = true) :
    ((s.tail.index >>> MARK_BIT_SHIFT) % NODE_SIZE + 1 = NODE_CAPACITY →
      tr = [Ev.casTailIndex s.tail.index (wrap (s.tail.index + (1 <<< MARK_BIT_SHIFT))),
            Ev.allocNode s.fresh,
            Ev.storeTailNode s.fresh,
            Ev.fetchAddTailIndex (1 <<< MARK_BIT_SHIFT),
            Ev.storeNext s.tail.node s.fresh,
            Ev.writeItem s.tail.node ((s.tail.index >>> MARK_BIT_SHIFT) % NODE_SIZE),
            Ev.orState s.tail.node ((s.tail.index >>> MARK_BIT_SHIFT) % NODE_SIZE) FILLED]
      ∧ lookupNode s s.fresh = none
      ∧ s'.tail.node = s.fresh
      ∧ s'.fresh = s.fresh + 1
      ∧ nextOf s' s.tail.node = some s.fresh
      ∧ lookupNode s' s.fresh = some Node.UNINIT)
    ∧ (¬ (s.tail.index >>> MARK_BIT_SHIFT) % NODE_SIZE + 1 = NODE_CAPACITY →
      tr = [Ev.casTailIndex s.tail.index (wrap (s.tail.index + (1 <<< MARK_BIT_SHIFT))),
            Ev.writeItem s.tail.node ((s.tail.index >>> MARK_BIT_SHIFT) % NODE_SIZE),
            Ev.orState s.tail.node ((s.tail.index >>> MARK_BIT_SHIFT) % NODE_SIZE) FILLED]
      ∧ s'.tail.node = s.tail.node
      ∧ s'.fresh = s.fresh
      ∧ (∀ id, nextOf s' id = nextOf s id)) := by
  have htn : s.tail.node ≠ s.fresh := by
    obtain ⟨n, hn⟩ := Option.isSome_iff_exists.mp hnode
    unfold lookupNode at hn
    cases hfind : s.heap.find? (fun q => q.1 == s.tail.node) with
    | none => rw [hfind] at hn; exact Option.noConfusion hn
    | some q =>
      have hmem := List.mem_of_find?_eq_some hfind
      have hkey : q.1 = s.tail.node := by
        have := List.find?_some hfind
        simpa [beq_iff_eq] using this
      have := hfresh q hmem
      omega
  unfold Inner.push at h
  simp only at h
  split at h
  · exact Option.noConfusion h
  · split at h
    · rename_i hne hoff
      injection h with h1
      injection h1 with h2 h3
      constructor
      · intro _
        refine ⟨h3.symm, lookupNode_of_bounded s s.fresh hfresh, ?_, ?_, ?_, ?_⟩
        · rw [← h2]; rfl
        · rw [← h2]; rfl
        · rw [← h2, nextOf_orState, nextOf_writeItem]
          refine nextOf_storeNext_self _ s.tail.node (some s.fresh) ?_
          exact isSome_append s _ [(s.fresh, Node.UNINIT)] rfl s.tail.node hnode
        · rw [← h2]
          unfold orState writeItem
          rw [lookupNode_updateNode, if_neg (by omega)]
          rw [lookupNode_updateNode, if_neg (by omega)]
          unfold storeNext
          rw [lookupNode_updateNode, if_neg (by omega)]
          exact lookupNode_append_last s _ s.fresh Node.UNINIT rfl
            (lookupNode_of_bounded s s.fresh hfresh)
      · intro hc
        exact absurd hoff hc
    · rename_i hne hoff
      injection h with h1
      injection h1 with h2 h3
      constructor
      · intro hc
        exact absurd hc hoff
      · intro _
        refine ⟨h3.symm, ?_, ?_, ?_⟩
        · rw [← h2]; rfl
        · rw [← h2]; rfl
        · intro id
          rw [← h2, nextOf_orState, nextOf_writeItem]
          rfl

/-- C8 witness: on the seventh push from a fresh queue (offset 6, the last
data slot), the successor installation happens with exactly the claimed
event order; on the first push (offset 0) no successor work occurs. -/
theorem push_successor_install_witness :
    ∃ (s6 : State Nat), pushAll (Queue.new : State Nat) (List.range 6) = some s6
    ∧ ∃ (s7 : State Nat) (tr : List Ev), Inner.push s6 6 = some (s7, tr)
      ∧ tr = [Ev.casTailIndex 12 14, Ev.allocNode 1, Ev.storeTailNode 1,
              Ev.fetchAddTailIndex 2, Ev.storeNext 0 1,
              Ev.writeItem 0 6, Ev.orState 0 6 FILLED]
      ∧ s7.tail.node = 1 ∧ s7.fresh = 2 ∧ nextOf s7 0 = some 1
      ∧ lookupNode s7 1 = some Node.UNINIT := by
  cases hp : pushAll (Queue.new : State Nat) (List.range 6) with
  | none => exact absurd hp (by decide)
  | some s6 =>
    have hs6 : s6 = (⟨⟨0, 0⟩, ⟨12, 0⟩,
        [(0, ⟨none, [⟨some 0, 1⟩, ⟨some 1, 1⟩, ⟨some 2, 1⟩, ⟨some 3, 1⟩,
          ⟨some 4, 1⟩, ⟨some 5, 1⟩, ⟨none, 0⟩]⟩)], 1, []⟩ : State Nat) := by
      have : pushAll (Queue.new : State Nat) (List.range 6)
          = some (⟨⟨0, 0⟩, ⟨12, 0⟩,
            [(0, ⟨none, [⟨some 0, 1⟩, ⟨some 1, 1⟩, ⟨some 2, 1⟩, ⟨some 3, 1⟩,
              ⟨some 4, 1⟩, ⟨some 5, 1⟩, ⟨none, 0⟩]⟩)], 1, []⟩ : State Nat) := by decide
      rw [hp] at this
      exact Option.some.inj this
    subst hs6
    cases hq : Inner.push (⟨⟨0, 0⟩, ⟨12, 0⟩,
        [(0, ⟨none, [⟨some 0, 1⟩, ⟨some 1, 1⟩, ⟨some 2, 1⟩, ⟨some 3, 1⟩,
          ⟨some 4, 1⟩, ⟨some 5, 1⟩, ⟨none, 0⟩]⟩)], 1, []⟩ : State Nat) 6 with
    | none => exact absurd hq (by decide)
    | some p =>
      obtain ⟨s7, tr⟩ := p
      have hspec := push_successor_install _ 6 s7 tr hq (by decide) (by decide)
      have hcond := (hspec.1 (by decide))
      exact ⟨_, hp, s7, tr, hq, hcond.1, hcond.2.2.1, hcond.2.2.2.1,
        hcond.2.2.2.2.1, hcond.2.2.2.2.2⟩

/-! ### Canonical single-threaded states

After `n` pushes of the items of `hist` and `p` pops (in any order obeying
`p ≤ n`), the single-threaded queue state is fully determined except for
the head mark bit `mh`.  The cursor sequence number after `k` data
operations is `seqOf k = k + k / 7`: every seventh operation additionally
skips the sentinel offset.  The `r`-th pushed item lives at sequence
position `s` with `r = s - s / 8` (node `s / 8`, offset `s % 8`). -/

def seqOf (k : Nat) : Nat := k + k / 7

def buildSlot {α : Type} (hist : List α) (p s : Nat) : Slot α :=
  { item := hist[s - s / 8]?,
    state := if s - s / 8 < p then FILLED ||| READING
             else if s - s / 8 < hist.length then FILLED
             else 0 }

def buildNode {α : Type} (hist : List α) (p tcap j : Nat) : Node α :=
  { next := if j < tcap then some (j + 1) else none,
    container := (List.range NODE_CAPACITY).map (fun o => buildSlot hist p (8 * j + o)) }

def buildState {α : Type} (hist : List α) (p mh : Nat) : State α :=
  { head := ⟨2 * seqOf p + mh, seqOf p / 8⟩,
    tail := ⟨2 * seqOf hist.length, seqOf hist.length / 8⟩,
    heap := (List.range' (seqOf p / 8) (seqOf hist.length / 8 + 1 - seqOf p / 8)).map
      (fun j => (j, buildNode hist p (seqOf hist.length / 8) j)),
    fresh := seqOf hist.length / 8 + 1,
    freed := List.range (seqOf p / 8) }

/-- The side conditions under which `buildState hist p mh` is a legal
single-threaded state: at most as many pops as pushes, a mark bit that is
set only when head and tail are in different nodes, and few enough
operations that no 64-bit index wraps. -/
def Ok {α : Type} (hist : List α) (p mh : Nat) : Prop :=
  p ≤ hist.length ∧ mh ≤ 1
    ∧ (mh = 1 → seqOf p / 8 < seqOf hist.length / 8)
    ∧ hist.length < 2 ^ 60

lemma init_build {α : Type} : (Inner.new : State α) = buildState [] 0 0 := by
  simp only [buildState, List.length_nil]
  rfl

/-! ### List plumbing for canonical heaps -/

lemma heap_update_map {α : Type} (l : List Nat) (g : Nat → Node α) (j : Nat)
    (f : Node α → Node α) :
    ((l.map (fun i => (i, g i))).map
        (fun q => if q.1 = j then (q.1, f q.2) else q))
      = l.map (fun i => (i, if i = j then f (g i) else g i)) := by
  rw [List.map_map]
  refine List.map_congr_left (fun i _ => ?_)
  by_cases h : i = j <;> simp [h]

lemma find?_range'_map {α : Type} (len lo id : Nat) (g : Nat → α) :
    ((List.range' lo len).map (fun i => (i, g i))).find? (fun q => q.1 == id)
      = if lo ≤ id ∧ id < lo + len then some (id, g id) else none := by
  induction len generalizing lo with
  | zero =>
    rw [if_neg (by omega)]
    rfl
  | succ len ih =>
    rw [List.range'_succ lo len 1]
    by_cases hid : lo = id
    · subst hid
      simp [List.find?_cons]
    · have hkey : ((lo, g lo).1 == id) = false := by simp [hid]
      simp only [List.map_cons, List.find?_cons, hkey, cond_false]
      rw [ih (lo + 1)]
      by_cases hin : lo + 1 ≤ id ∧ id < lo + 1 + len
      · rw [if_pos hin, if_pos (by omega)]
      · rw [if_neg hin, if_neg (by omega)]

lemma lookup_buildState {α : Type} (hist : List α) (p mh id : Nat) :
    lookupNode (buildState hist p mh) id
      = if seqOf p / 8 ≤ id ∧ id ≤ seqOf hist.length / 8
        then some (buildNode hist p (seqOf hist.length / 8) id)
        else none := by
  unfold lookupNode buildState
  simp only
  rw [find?_range'_map]
  by_cases hin : seqOf p / 8 ≤ id ∧ id < seqOf p / 8 + (seqOf hist.length / 8 + 1 - seqOf p / 8)
  · rw [if_pos hin, if_pos ⟨hin.1, by omega⟩]
    rfl
  · by_cases h2 : seqOf p / 8 ≤ id ∧ id ≤ seqOf hist.length / 8
    · exact absurd ⟨h2.1, by omega⟩ hin
    · rw [if_neg hin, if_neg h2]
      rfl

lemma getD_map_range {α : Type} (K o : Nat) (f : Nat → Slot α) (h : o < K) :
    ((List.range K).map f).getD o Slot.UNINIT = f o := by
  rw [List.getD_eq_getElem?_getD, List.getElem?_map, List.getElem?_range h]
  rfl

lemma map_range_set {α : Type} (K o : Nat) (f : Nat → Slot α) (v : Slot α)
    (h : o < K) :
    ((List.range K).map f).set o v
      = (List.range K).map (fun i => if i = o then v else f i) := by
  refine List.ext_getElem? (fun i => ?_)
  simp only [List.getElem?_set, List.getElem?_map, List.length_map,
    List.length_range]
  by_cases hio : o = i
  · subst hio
    rw [if_pos rfl, if_pos h, List.getElem?_range h]
    simp
  · rw [if_neg hio]
    by_cases hi : i < K
    · rw [List.getElem?_range hi]
      have : ¬ i = o := fun hh => hio hh.symm
      simp [this]
    · rw [List.getElem?_eq_none (l := List.range K) (by simpa using (by omega : K ≤ i))]
      simp

lemma heap_concat_map {α : Type} (lo len last : Nat) (g g2 : Nat → Node α)
    (hid : last = lo + len)
    (hsame : ∀ i, lo ≤ i → i < lo + len → g2 i = g i)
    (hlast : g2 last = Node.UNINIT) :
    (List.range' lo len).map (fun i => (i, g i)) ++ [(last, Node.UNINIT)]
      = (List.range' lo (len + 1)).map (fun i => (i, g2 i)) := by
  subst hid
  rw [List.range'_concat lo len, List.map_append]
  congr 1
  · refine (List.map_congr_left (fun i hi => ?_)).symm
    obtain ⟨h1, h2⟩ := List.mem_range'_1.mp hi
    rw [hsame i h1 (by omega)]
  · simp only [List.map_cons, List.map_nil]
    rw [show lo + 1 * len = lo + len by omega, hlast]

lemma heap_filter_head {α : Type} (lo len : Nat) (g : Nat → Node α) :
    (((List.range' lo (len + 1)).map (fun i => (i, g i))).filter
        (fun q => q.1 != lo))
      = (List.range' (lo + 1) len).map (fun i => (i, g i)) := by
  rw [List.range'_succ lo len 1]
  simp only [List.map_cons, List.filter_cons]
  rw [if_neg (by simp)]
  refine List.filter_eq_self.mpr (fun q hq => ?_)
  obtain ⟨i, hi, hq⟩ := List.mem_map.mp hq
  obtain ⟨h1, _⟩ := List.mem_range'_1.mp hi
  rw [← hq]
  simp only [bne_iff_ne, ne_eq]
  omega

/-! ### How pushes and pops transform canonical nodes -/

lemma buildSlot_append_ne {α : Type} (hist : List α) (x : α) (p s : Nat)
    (h : ¬ s - s / 8 = hist.length) :
    buildSlot (hist ++ [x]) p s = buildSlot hist p s := by
  unfold buildSlot
  have hitem : (hist ++ [x])[s - s / 8]? = hist[s - s / 8]? := by
    rcases Nat.lt_or_ge (s - s / 8) hist.length with hlt | hge
    · rw [List.getElem?_append, if_pos hlt]
    · have hgt : hist.length + 1 ≤ s - s / 8 := by omega
      rw [List.getElem?_eq_none (l := hist) (by omega)]
      rw [List.getElem?_eq_none (by simpa using hgt)]
  have hlen : (hist ++ [x]).length = hist.length + 1 := by simp
  rw [hitem, hlen]
  by_cases h1 : s - s / 8 < p
  · rw [if_pos h1, if_pos h1]
  · rw [if_neg h1, if_neg h1]
    by_cases h2 : s - s / 8 < hist.length
    · rw [if_pos h2, if_pos (by omega)]
    · rw [if_neg h2, if_neg (by omega)]

lemma buildSlot_pop_ne {α : Type} (hist : List α) (p s : Nat)
    (h : ¬ s - s / 8 = p) :
    buildSlot hist (p + 1) s = buildSlot hist p s := by
  unfold buildSlot
  by_cases h1 : s - s / 8 < p
  · rw [if_pos (by omega), if_pos h1]
  · rw [if_neg (by omega), if_neg h1]

lemma buildNode_append_ne {α : Type} (hist : List α) (x : α) (p tcap i : Nat)
    (hi : ¬ i = hist.length / 7) :
    buildNode (hist ++ [x]) p tcap i = buildNode hist p tcap i := by
  unfold buildNode
  congr 1
  refine List.map_congr_left (fun o ho => ?_)
  have ho7 : o < NODE_CAPACITY := List.mem_range.mp ho
  rw [NODE_CAPACITY_eq] at ho7
  refine buildSlot_append_ne hist x p _ ?_
  intro hr
  apply hi
  omega

lemma buildNode_pop_ne {α : Type} (hist : List α) (p tcap i : Nat)
    (hi : ¬ i = p / 7) :
    buildNode hist (p + 1) tcap i = buildNode hist p tcap i := by
  unfold buildNode
  congr 1
  refine List.map_congr_left (fun o ho => ?_)
  have ho7 : o < NODE_CAPACITY := List.mem_range.mp ho
  rw [NODE_CAPACITY_eq] at ho7
  refine buildSlot_pop_ne hist p _ ?_
  intro hr
  apply hi
  omega

lemma buildNode_empty {α : Type} (hist : List α) (p tcap j : Nat)
    (h1 : hist.length ≤ 7 * j) (h2 : p ≤ 7 * j) (hj : ¬ j < tcap) :
    buildNode hist p tcap j = Node.UNINIT := by
  unfold buildNode Node.UNINIT
  congr 1
  · rw [if_neg hj]
  · refine List.eq_replicate_iff.mpr ⟨by simp, fun sl hsl => ?_⟩
    obtain ⟨o, ho, hsl⟩ := List.mem_map.mp hsl
    have ho7 : o < NODE_CAPACITY := List.mem_range.mp ho
    rw [NODE_CAPACITY_eq] at ho7
    rw [← hsl]
    unfold buildSlot Slot.UNINIT
    have hr : 8 * j + o - (8 * j + o) / 8 = 7 * j + o := by omega
    rw [hr]
    rw [List.getElem?_eq_none (by omega), if_neg (by omega), if_neg (by omega)]

lemma buildNode_write {α : Type} (hist : List α) (x : α) (p tcap : Nat)
    (hp : p ≤ hist.length) :
    ((buildNode hist p tcap (hist.length / 7)).setSlot (hist.length % 7)
        (fun sl => { sl with item := some x })).setSlot (hist.length % 7)
        (fun sl => { sl with state := sl.state ||| FILLED })
      = buildNode (hist ++ [x]) p tcap (hist.length / 7) := by
  have hb : hist.length % 7 < NODE_CAPACITY := by rw [NODE_CAPACITY_eq]; omega
  unfold buildNode Node.setSlot
  simp only
  rw [getD_map_range _ _ _ hb, map_range_set _ _ _ _ hb]
  rw [getD_map_range _ _ _ hb, map_range_set _ _ _ _ hb]
  congr 1
  refine List.map_congr_left (fun i hi => ?_)
  have hi7 : i < NODE_CAPACITY := List.mem_range.mp hi
  rw [NODE_CAPACITY_eq] at hi7
  by_cases hib : i = hist.length % 7
  · subst hib
    rw [if_pos rfl, if_pos rfl]
    have hr : 8 * (hist.length / 7) + hist.length % 7
        - (8 * (hist.length / 7) + hist.length % 7) / 8 = hist.length := by
      omega
    unfold buildSlot
    simp only [hr]
    rw [if_neg (by omega), if_neg (by omega), if_neg (by omega),
      if_pos (by simp : hist.length < (hist ++ [x]).length),
      List.getElem?_concat_length]
    have : (0 : Nat) ||| FILLED = FILLED := by decide
    rw [this]
  · rw [if_neg hib, if_neg hib]
    refine (buildSlot_append_ne hist x p _ ?_).symm
    intro hr
    apply hib
    omega

lemma seq_div8 (k : Nat) : seqOf k / 8 = k / 7 := by
  unfold seqOf
  omega

lemma State_ext {α : Type} {s t : State α}
    (h1 : s.head = t.head) (h2 : s.tail = t.tail) (h3 : s.heap = t.heap)
    (h4 : s.fresh = t.fresh) (h5 : s.freed = t.freed) : s = t := by
  cases s
  cases t
  congr 1

lemma setSlot_with_next {α : Type} (nd : Node α) (v : Option Nat) (o : Nat)
    (f : Slot α → Slot α) :
    (({ next := v, container := nd.container } : Node α).setSlot o f)
      = { next := v, container := (nd.setSlot o f).container } := rfl

lemma buildNode_with_next {α : Type} (hist : List α) (p tcap tcap' j : Nat)
    (v : Option Nat) (h : (if j < tcap' then some (j + 1) else none) = v) :
    ({ next := v, container := (buildNode hist p tcap j).container } : Node α)
      = buildNode hist p tcap' j := by
  unfold buildNode
  rw [← h]

lemma buildNode_tcap_lt {α : Type} (hist : List α) (p tcap tcap' i : Nat)
    (h1 : i < tcap) (h2 : i < tcap') :
    buildNode hist p tcap i = buildNode hist p tcap' i := by
  unfold buildNode
  rw [if_pos h1, if_pos h2]

lemma push_build {α : Type} (hist : List α) (p mh : Nat) (x : α)
    (hok : Ok hist p mh) :
    ∃ tr, Inner.push (buildState hist p mh) x
      = some (buildState (hist ++ [x]) p mh, tr) := by
  obtain ⟨hpn, hmh, hmark, hbound⟩ := hok
  have hlen' : (hist ++ [x]).length = hist.length + 1 := by simp
  unfold Inner.push
  dsimp only [buildState]
  have hoffeq : ((2 * seqOf hist.length) >>> MARK_BIT_SHIFT) % NODE_SIZE
      = hist.length % 7 := by
    rw [MARK_BIT_SHIFT_eq, shr_one, NODE_SIZE_eq]
    unfold seqOf
    omega
  rw [hoffeq]
  simp only [seq_div8]
  rw [if_neg (show ¬ hist.length % 7 = NODE_CAPACITY by rw [NODE_CAPACITY_eq]; omega)]
  by_cases hb : hist.length % 7 + 1 = NODE_CAPACITY
  · rw [if_pos hb]
    rw [NODE_CAPACITY_eq] at hb
    refine ⟨[Ev.casTailIndex (2 * seqOf hist.length)
        (wrap (2 * seqOf hist.length + (1 <<< MARK_BIT_SHIFT))),
      Ev.allocNode (hist.length / 7 + 1),
      Ev.storeTailNode (hist.length / 7 + 1),
      Ev.fetchAddTailIndex (1 <<< MARK_BIT_SHIFT),
      Ev.storeNext (hist.length / 7) (hist.length / 7 + 1),
      Ev.writeItem (hist.length / 7) (hist.length % 7),
      Ev.orState (hist.length / 7) (hist.length % 7) FILLED], ?_⟩
    refine congrArg some ?_
    refine congrArg₂ Prod.mk ?_ rfl
    refine State_ext ?_ ?_ ?_ ?_ ?_
    · simp only [orState_head, writeItem_head, storeNext_head]
    · simp only [orState_tail, writeItem_tail, storeNext_tail]
      rw [hlen']
      show Cursor.mk _ _ = Cursor.mk _ _
      have e1 : (1 : Nat) <<< MARK_BIT_SHIFT = 2 := rfl
      congr 1
      · simp only [e1, wrap, USIZE, seqOf]
        omega
      · omega
    · simp only [orState, writeItem, storeNext, updateNode]
      rw [heap_concat_map (p / 7) (hist.length / 7 + 1 - p / 7) (hist.length / 7 + 1)
        (fun j => buildNode hist p (hist.length / 7) j)
        (fun j => if j = hist.length / 7 + 1 then Node.UNINIT
          else buildNode hist p (hist.length / 7) j)
        (by omega) (fun i h1 h2 => if_neg (by omega)) (if_pos rfl)]
      rw [hlen']
      have h7 : (hist.length + 1) / 7 = hist.length / 7 + 1 := by omega
      rw [h7]
      have hlen2 : hist.length / 7 + 1 + 1 - p / 7
          = (hist.length / 7 + 1 - p / 7) + 1 := by omega
      rw [hlen2]
      simp only [List.map_map]
      refine List.map_congr_left (fun i hi => ?_)
      obtain ⟨hlo, hhi⟩ := List.mem_range'_1.mp hi
      simp only [Function.comp_apply]
      by_cases hA : i = hist.length / 7
      · subst hA
        have hAL : ¬ hist.length / 7 = hist.length / 7 + 1 := by omega
        simp only [if_neg hAL, eq_self_iff_true, if_true]
        refine congrArg _ ?_
        have hflat : ((Node.mk (some (hist.length / 7 + 1))
              ((buildNode hist p (hist.length / 7) (hist.length / 7)).container)).setSlot
              (hist.length % 7) (fun sl => { sl with item := some x })).setSlot
              (hist.length % 7) (fun sl => { sl with state := sl.state ||| FILLED })
            = Node.mk (some (hist.length / 7 + 1))
                ((((buildNode hist p (hist.length / 7) (hist.length / 7)).setSlot
                  (hist.length % 7) (fun sl => { sl with item := some x })).setSlot
                  (hist.length % 7)
                  (fun sl => { sl with state := sl.state ||| FILLED })).container) := rfl
        rw [hflat, buildNode_write hist x p (hist.length / 7) hpn]
        exact buildNode_with_next (hist ++ [x]) p (hist.length / 7)
          (hist.length / 7 + 1) (hist.length / 7) (some (hist.length / 7 + 1))
          (by rw [if_pos (by omega)])
      · by_cases hL : i = hist.length / 7 + 1
        · subst hL
          have hLA : ¬ hist.length / 7 + 1 = hist.length / 7 := by omega
          simp only [eq_self_iff_true, if_true, if_neg hLA]
          refine congrArg _ ?_
          refine (buildNode_empty (hist ++ [x]) p (hist.length / 7 + 1)
            (hist.length / 7 + 1) ?_ ?_ ?_).symm
          · rw [hlen']
            omega
          · omega
          · omega
        · simp only [if_neg hA, if_neg hL]
          refine congrArg _ ?_
          rw [buildNode_append_ne hist x p (hist.length / 7 + 1) i hA]
          exact buildNode_tcap_lt hist p (hist.length / 7) (hist.length / 7 + 1) i
            (by omega) (by omega)
    · simp only [orState, writeItem, storeNext, updateNode]
      rw [hlen']
      show _ + _ + _ = _
      omega
    · rfl
  · rw [if_neg hb]
    rw [NODE_CAPACITY_eq] at hb
    refine ⟨[Ev.casTailIndex (2 * seqOf hist.length)
        (wrap (2 * seqOf hist.length + (1 <<< MARK_BIT_SHIFT))),
      Ev.writeItem (hist.length / 7) (hist.length % 7),
      Ev.orState (hist.length / 7) (hist.length % 7) FILLED], ?_⟩
    refine congrArg some ?_
    refine congrArg₂ Prod.mk ?_ rfl
    have h7b : (hist.length + 1) / 7 = hist.length / 7 := by omega
    refine State_ext ?_ ?_ ?_ ?_ ?_
    · simp only [orState_head, writeItem_head]
    · simp only [orState_tail, writeItem_tail]
      rw [hlen']
      show Cursor.mk _ _ = Cursor.mk _ _
      have e1 : (1 : Nat) <<< MARK_BIT_SHIFT = 2 := rfl
      congr 1
      · simp only [e1, wrap, USIZE, seqOf]
        omega
      · omega
    · simp only [orState, writeItem, updateNode]
      rw [hlen', h7b]
      simp only [List.map_map]
      refine List.map_congr_left (fun i hi => ?_)
      obtain ⟨hlo, hhi⟩ := List.mem_range'_1.mp hi
      simp only [Function.comp_apply]
      by_cases hA : i = hist.length / 7
      · subst hA
        simp only [eq_self_iff_true, if_true]
        refine congrArg _ ?_
        rw [buildNode_write hist x p (hist.length / 7) hpn]
      · simp only [if_neg hA]
        refine congrArg _ ?_
        exact (buildNode_append_ne hist x p (hist.length / 7) i hA).symm
    · simp only [orState, writeItem, updateNode]
      rw [hlen']
      show _ + _ = _
      omega
    · rfl

end LfQueue
namespace LfQueue

lemma slotState_heap_eq {α : Type} {s t : State α} (h : s.heap = t.heap)
    (id off : Nat) : slotState s id off = slotState t id off := by
  unfold slotState lookupNode
  rw [h]

lemma slotItem_heap_eq {α : Type} {s t : State α} (h : s.heap = t.heap)
    (id off : Nat) : slotItem s id off = slotItem t id off := by
  unfold slotItem lookupNode
  rw [h]

lemma slotState_build {α : Type} (hist : List α) (p mh id off : Nat)
    (hlo : seqOf p / 8 ≤ id) (hhi : id ≤ seqOf hist.length / 8)
    (hoff : off < NODE_CAPACITY) :
    slotState (buildState hist p mh) id off
      = (buildSlot hist p (8 * id + off)).state := by
  unfold slotState
  rw [lookup_buildState, if_pos ⟨hlo, hhi⟩]
  unfold buildNode
  dsimp only
  rw [getD_map_range _ _ _ hoff]

lemma slotItem_build {α : Type} (hist : List α) (p mh id off : Nat)
    (hlo : seqOf p / 8 ≤ id) (hhi : id ≤ seqOf hist.length / 8)
    (hoff : off < NODE_CAPACITY) :
    slotItem (buildState hist p mh) id off
      = (buildSlot hist p (8 * id + off)).item := by
  unfold slotItem
  rw [lookup_buildState, if_pos ⟨hlo, hhi⟩]
  unfold buildNode
  dsimp only
  rw [getD_map_range _ _ _ hoff]

lemma pop_build_empty {α : Type} (hist : List α) (mh : Nat)
    (hok : Ok hist hist.length mh) :
    Inner.pop (buildState hist hist.length mh)
      = some (none, buildState hist hist.length mh, []) := by
  obtain ⟨hpn, hmh, hmark, hbound⟩ := hok
  have hmh0 : mh = 0 := by
    by_cases h : mh = 1
    · exact absurd (hmark h) (lt_irrefl _)
    · omega
  subst hmh0
  unfold Inner.pop
  dsimp only [buildState]
  have hoffeq : ((2 * seqOf hist.length + 0) >>> MARK_BIT_SHIFT) % NODE_SIZE
      = hist.length % 7 := by
    rw [MARK_BIT_SHIFT_eq, shr_one, NODE_SIZE_eq]
    unfold seqOf
    omega
  rw [hoffeq]
  rw [if_neg (show ¬ hist.length % 7 = NODE_CAPACITY by rw [NODE_CAPACITY_eq]; omega)]
  rw [if_pos (show wrap (2 * seqOf hist.length + 0 + (1 <<< MARK_BIT_SHIFT)) &&& MARK_BIT = 0 by
    rw [MARK_BIT_SHIFT_eq, shl_one, and_mark]
    unfold wrap USIZE
    omega)]
  rw [if_pos (show (2 * seqOf hist.length + 0) >>> MARK_BIT_SHIFT
      = (2 * seqOf hist.length) >>> MARK_BIT_SHIFT by
    rw [MARK_BIT_SHIFT_eq, shr_one, shr_one]
    omega)]

end LfQueue

namespace LfQueue

lemma slotState_head_set {α : Type} (s : State α) (c : Cursor) (id off : Nat) :
    slotState { s with head := c } id off = slotState s id off := rfl

lemma slotItem_head_set {α : Type} (s : State α) (c : Cursor) (id off : Nat) :
    slotItem { s with head := c } id off = slotItem s id off := rfl

lemma nextOf_head_set {α : Type} (s : State α) (c : Cursor) (id : Nat) :
    nextOf { s with head := c } id = nextOf s id := rfl

lemma buildNode_read {α : Type} (hist : List α) (p tcap : Nat)
    (hp : p < hist.length) :
    (buildNode hist p tcap (p / 7)).setSlot (p % 7)
        (fun sl => { sl with state := sl.state ||| READING })
      = buildNode hist (p + 1) tcap (p / 7) := by
  have hb : p % 7 < NODE_CAPACITY := by rw [NODE_CAPACITY_eq]; omega
  unfold buildNode Node.setSlot
  simp only
  rw [getD_map_range _ _ _ hb, map_range_set _ _ _ _ hb]
  congr 1
  refine List.map_congr_left (fun i hi => ?_)
  have hi7 : i < NODE_CAPACITY := List.mem_range.mp hi
  rw [NODE_CAPACITY_eq] at hi7
  by_cases hib : i = p % 7
  · subst hib
    rw [if_pos rfl]
    have hr : 8 * (p / 7) + p % 7 - (8 * (p / 7) + p % 7) / 8 = p := by omega
    unfold buildSlot
    simp only [hr]
    rw [if_neg (show ¬ p < p by omega), if_pos hp, if_pos (show p < p + 1 by omega)]
  · rw [if_neg hib]
    refine (buildSlot_pop_ne hist p _ ?_).symm
    intro hr
    apply hib
    omega

lemma popCommit_build_nb {α : Type} (hist : List α) (p mh mh' nhi : Nat) (x : α)
    (hx : hist[p]? = some x)
    (hbound : hist.length < 2 ^ 60)
    (hb : ¬ p % 7 + 1 = NODE_CAPACITY)
    (hnhi : nhi = 2 * seqOf (p + 1) + mh') :
    Inner.popCommit (buildState hist p mh) (2 * seqOf p + mh) (seqOf p / 8) (p % 7) nhi
      = some (some x, buildState hist (p + 1) mh',
          [Ev.casHeadIndex (2 * seqOf p + mh) nhi,
           Ev.orState (seqOf p / 8) (p % 7) READING]) := by
  have hlt : p < hist.length := by
    by_contra h
    rw [List.getElem?_eq_none (by omega)] at hx
    exact Option.noConfusion hx
  rw [NODE_CAPACITY_eq] at hb
  have hnb : p % 7 ≤ 5 := by omega
  unfold Inner.popCommit
  dsimp only
  rw [if_neg (show ¬ p % 7 + 1 = NODE_CAPACITY by rw [NODE_CAPACITY_eq]; omega)]
  dsimp only
  simp only [slotState_head_set, slotItem_head_set]
  have hbs : buildSlot hist p (8 * (seqOf p / 8) + p % 7) = Slot.mk (some x) FILLED := by
    unfold buildSlot
    have hr : 8 * (seqOf p / 8) + p % 7 - (8 * (seqOf p / 8) + p % 7) / 8 = p := by
      rw [seq_div8]
      omega
    rw [hr, hx, if_neg (show ¬ p < p by omega), if_pos hlt]
  simp only [slotState_build hist p mh (seqOf p / 8) (p % 7) (Nat.le_refl _)
      (by rw [seq_div8, seq_div8]; omega) (by rw [NODE_CAPACITY_eq]; omega),
    slotItem_build hist p mh (seqOf p / 8) (p % 7) (Nat.le_refl _)
      (by rw [seq_div8, seq_div8]; omega) (by rw [NODE_CAPACITY_eq]; omega),
    hbs]
  rw [if_neg (by decide : ¬ (FILLED &&& FILLED = 0))]
  rw [if_neg (show ¬ p % 7 + 1 = NODE_CAPACITY by rw [NODE_CAPACITY_eq]; omega)]
  rw [if_neg (by decide : ¬ (FILLED &&& DRAINING ≠ 0))]
  refine congrArg some ?_
  refine congrArg₂ Prod.mk rfl ?_
  refine congrArg₂ Prod.mk ?_ rfl
  refine State_ext ?_ ?_ ?_ ?_ ?_
  · simp only [orState_head]
    dsimp only [buildState]
    rw [hnhi, show seqOf p / 8 = seqOf (p + 1) / 8 by rw [seq_div8, seq_div8]; omega]
  · simp only [orState_tail]
    rfl
  · simp only [orState, updateNode]
    dsimp only [buildState]
    have h8 : seqOf (p + 1) / 8 = seqOf p / 8 := by rw [seq_div8, seq_div8]; omega
    rw [h8]
    simp only [List.map_map]
    refine List.map_congr_left (fun i hi => ?_)
    obtain ⟨hlo, hhi⟩ := List.mem_range'_1.mp hi
    simp only [Function.comp_apply]
    by_cases hA : i = seqOf p / 8
    · subst hA
      simp only [eq_self_iff_true, if_true]
      refine congrArg _ ?_
      rw [seq_div8 p]
      exact buildNode_read hist p (seqOf hist.length / 8) hlt
    · simp only [if_neg hA]
      refine congrArg _ ?_
      refine (buildNode_pop_ne hist p (seqOf hist.length / 8) i ?_).symm
      rw [seq_div8] at hA
      exact hA
  · rfl
  · simp only [orState_freed]
    dsimp only [buildState]
    rw [show seqOf (p + 1) / 8 = seqOf p / 8 by rw [seq_div8, seq_div8]; omega]

end LfQueue

namespace LfQueue

lemma drain_canonical {α : Type} (hist : List α) (p mh : Nat) (c : Cursor)
    (hb6 : p % 7 = 6) (hlt : p < hist.length) :
    Node.drain { buildState hist p mh with head := c } (seqOf p / 8) 0
      = (freeNode { buildState hist p mh with head := c } (seqOf p / 8),
         [Ev.freeNode (seqOf p / 8)]) := by
  unfold Node.drain
  refine drainLoop_free _ (seqOf p / 8) 0 _ (fun o h0 h6 => ?_)
  rw [NODE_CAPACITY_eq] at h6
  rw [slotState_head_set]
  rw [slotState_build hist p mh (seqOf p / 8) o (Nat.le_refl _)
      (by rw [seq_div8, seq_div8]; omega) (by rw [NODE_CAPACITY_eq]; omega)]
  unfold buildSlot
  have hr : 8 * (seqOf p / 8) + o - (8 * (seqOf p / 8) + o) / 8
      = 7 * (p / 7) + o := by
    rw [seq_div8]
    omega
  rw [hr, if_pos (show 7 * (p / 7) + o < p by omega)]
  show (FILLED ||| READING) &&& READING ≠ 0
  decide

lemma popCommit_build_bd {α : Type} (hist : List α) (p mh nhi : Nat) (x : α)
    (hx : hist[p]? = some x)
    (hbound : hist.length < 2 ^ 60)
    (hb : p % 7 + 1 = NODE_CAPACITY)
    (hnhi : nhi = 2 * seqOf p + 3) :
    Inner.popCommit (buildState hist p mh) (2 * seqOf p + mh) (seqOf p / 8) (p % 7) nhi
      = some (some x, buildState hist (p + 1)
            (if (p + 1) / 7 < hist.length / 7 then 1 else 0),
          [Ev.casHeadIndex (2 * seqOf p + mh) nhi,
           Ev.storeHeadNode (seqOf p / 8 + 1),
           Ev.storeHeadIndex (2 * seqOf (p + 1)
             + (if (p + 1) / 7 < hist.length / 7 then 1 else 0)),
           Ev.freeNode (seqOf p / 8)]) := by
  subst hnhi
  have hlt : p < hist.length := by
    by_contra h
    rw [List.getElem?_eq_none (by omega)] at hx
    exact Option.noConfusion hx
  rw [NODE_CAPACITY_eq] at hb
  have hb6 : p % 7 = 6 := by omega
  have h7 : p / 7 + 1 ≤ hist.length / 7 := by omega
  unfold Inner.popCommit
  dsimp only
  rw [if_pos (show p % 7 + 1 = NODE_CAPACITY by rw [NODE_CAPACITY_eq]; omega)]
  simp only [nextOf_head_set, slotState_head_set, slotItem_head_set]
  have hnext1 : nextOf (buildState hist p mh) (seqOf p / 8)
      = some (seqOf p / 8 + 1) := by
    unfold nextOf
    rw [lookup_buildState, if_pos ⟨Nat.le_refl _, by rw [seq_div8, seq_div8]; omega⟩]
    show (buildNode hist p (seqOf hist.length / 8) (seqOf p / 8)).next = _
    unfold buildNode
    dsimp only
    rw [if_pos (show seqOf p / 8 < seqOf hist.length / 8 by
      rw [seq_div8, seq_div8]; omega)]
  rw [hnext1]
  dsimp only
  simp only [slotState_head_set, slotItem_head_set]
  have hnext2 : nextOf (buildState hist p mh) (seqOf p / 8 + 1)
      = if seqOf p / 8 + 1 < seqOf hist.length / 8
        then some (seqOf p / 8 + 1 + 1) else none := by
    unfold nextOf
    rw [lookup_buildState, if_pos ⟨by omega, by rw [seq_div8, seq_div8]; omega⟩]
    show (buildNode hist p (seqOf hist.length / 8) (seqOf p / 8 + 1)).next = _
    unfold buildNode
    dsimp only
  have hbase : wrap (((2 * seqOf p + 3) &&& (USIZE - 2)) + 1 <<< MARK_BIT_SHIFT)
      = 2 * seqOf (p + 1) := by
    rw [show (2 * seqOf p + 3) = 2 * (seqOf p + 1) + 1 by omega]
    rw [and_not_mark (seqOf p + 1) 1 (by unfold seqOf; omega) (by omega)]
    rw [MARK_BIT_SHIFT_eq, shl_one]
    unfold wrap USIZE seqOf
    omega
  have hbs : buildSlot hist p (8 * (seqOf p / 8) + p % 7) = Slot.mk (some x) FILLED := by
    unfold buildSlot
    have hr : 8 * (seqOf p / 8) + p % 7 - (8 * (seqOf p / 8) + p % 7) / 8 = p := by
      rw [seq_div8]
      omega
    rw [hr, hx, if_neg (show ¬ p < p by omega), if_pos hlt]
  have hslots := by
    refine And.intro
      (slotState_build hist p mh (seqOf p / 8) (p % 7) (Nat.le_refl _)
        (by rw [seq_div8, seq_div8]; omega) (by rw [NODE_CAPACITY_eq]; omega))
      (slotItem_build hist p mh (seqOf p / 8) (p % 7) (Nat.le_refl _)
        (by rw [seq_div8, seq_div8]; omega) (by rw [NODE_CAPACITY_eq]; omega))
  by_cases hm : seqOf p / 8 + 1 < seqOf hist.length / 8
  · have hm7 : p / 7 + 1 < hist.length / 7 := by
      have h := hm
      rw [seq_div8, seq_div8] at h
      omega
    rw [show (if (p + 1) / 7 < hist.length / 7 then 1 else 0) = 1
      from if_pos (by omega)]
    simp only [hnext2, if_pos hm, Option.isSome_some, eq_self_iff_true, if_true,
      hbase, MARK_BIT_eq, two_mul_lor_one]
    simp only [hslots.1, hslots.2, hbs]
    rw [if_neg (by decide : ¬ (FILLED &&& FILLED = 0))]
    rw [if_pos (show p % 7 + 1 = NODE_CAPACITY by rw [NODE_CAPACITY_eq]; omega)]
    rw [drain_canonical hist p mh _ hb6 hlt]
    dsimp only
    refine congrArg some ?_
    refine congrArg₂ Prod.mk rfl ?_
    refine congrArg₂ Prod.mk ?_ rfl
    refine State_ext ?_ ?_ ?_ ?_ ?_
    · simp only [freeNode_head]
      dsimp only [buildState]
      rw [show seqOf p / 8 + 1 = seqOf (p + 1) / 8 by rw [seq_div8, seq_div8]; omega]
    · simp only [freeNode_tail]
      rfl
    · simp only [freeNode]
      dsimp only [buildState]
      rw [show seqOf hist.length / 8 + 1 - seqOf p / 8
          = (seqOf hist.length / 8 - seqOf p / 8) + 1
        from by rw [seq_div8, seq_div8]; omega]
      rw [heap_filter_head (seqOf p / 8) (seqOf hist.length / 8 - seqOf p / 8) _]
      rw [show seqOf (p + 1) / 8 = seqOf p / 8 + 1 by rw [seq_div8, seq_div8]; omega]
      rw [show seqOf hist.length / 8 + 1 - (seqOf p / 8 + 1)
          = seqOf hist.length / 8 - seqOf p / 8 from by omega]
      refine List.map_congr_left (fun i hi => ?_)
      obtain ⟨hlo, hhi⟩ := List.mem_range'_1.mp hi
      refine congrArg _ ?_
      refine (buildNode_pop_ne hist p (seqOf hist.length / 8) i ?_).symm
      rw [seq_div8] at hlo
      omega
    · rfl
    · simp only [freeNode]
      dsimp only [buildState]
      rw [show seqOf (p + 1) / 8 = seqOf p / 8 + 1 by rw [seq_div8, seq_div8]; omega,
        List.range_succ]
  · have hm7 : ¬ (p / 7 + 1 < hist.length / 7) := by
      intro h
      apply hm
      rw [seq_div8, seq_div8]
      omega
    rw [show (if (p + 1) / 7 < hist.length / 7 then 1 else 0) = 0
      from if_neg (by omega)]
    simp only [hnext2, if_neg hm, Option.isSome_none, Bool.false_eq_true, if_false,
      hbase, Nat.add_zero]
    simp only [hslots.1, hslots.2, hbs]
    rw [if_neg (by decide : ¬ (FILLED &&& FILLED = 0))]
    rw [if_pos (show p % 7 + 1 = NODE_CAPACITY by rw [NODE_CAPACITY_eq]; omega)]
    rw [drain_canonical hist p mh _ hb6 hlt]
    dsimp only
    refine congrArg some ?_
    refine congrArg₂ Prod.mk rfl ?_
    refine congrArg₂ Prod.mk ?_ rfl
    refine State_ext ?_ ?_ ?_ ?_ ?_
    · simp only [freeNode_head]
      dsimp only [buildState]
      show Cursor.mk _ _ = Cursor.mk _ _
      congr 1
      unfold seqOf
      omega
    · simp only [freeNode_tail]
      rfl
    · simp only [freeNode]
      dsimp only [buildState]
      rw [show seqOf hist.length / 8 + 1 - seqOf p / 8
          = (seqOf hist.length / 8 - seqOf p / 8) + 1
        from by rw [seq_div8, seq_div8]; omega]
      rw [heap_filter_head (seqOf p / 8) (seqOf hist.length / 8 - seqOf p / 8) _]
      rw [show seqOf (p + 1) / 8 = seqOf p / 8 + 1 by rw [seq_div8, seq_div8]; omega]
      rw [show seqOf hist.length / 8 + 1 - (seqOf p / 8 + 1)
          = seqOf hist.length / 8 - seqOf p / 8 from by omega]
      refine List.map_congr_left (fun i hi => ?_)
      obtain ⟨hlo, hhi⟩ := List.mem_range'_1.mp hi
      refine congrArg _ ?_
      refine (buildNode_pop_ne hist p (seqOf hist.length / 8) i ?_).symm
      rw [seq_div8] at hlo
      omega
    · rfl
    · simp only [freeNode]
      dsimp only [buildState]
      rw [show seqOf (p + 1) / 8 = seqOf p / 8 + 1 by rw [seq_div8, seq_div8]; omega,
        List.range_succ]

end LfQueue

namespace LfQueue

lemma pop_build_cons {α : Type} (hist : List α) (p mh : Nat) (x : α)
    (hok : Ok hist p mh) (hx : hist[p]? = some x) :
    ∃ tr, Inner.pop (buildState hist p mh)
      = some (some x, buildState hist (p + 1)
          (if (p + 1) / 7 < hist.length / 7 then 1 else 0), tr) := by
  obtain ⟨hpn, hmh, hmark, hbound⟩ := hok
  have hlt : p < hist.length := by
    by_contra h
    rw [List.getElem?_eq_none (by omega)] at hx
    exact Option.noConfusion hx
  unfold Inner.pop
  dsimp only [buildState]
  have hoffeq : ((2 * seqOf p + mh) >>> MARK_BIT_SHIFT) % NODE_SIZE = p % 7 := by
    rw [MARK_BIT_SHIFT_eq, shr_one, NODE_SIZE_eq]
    unfold seqOf
    omega
  rw [hoffeq]
  rw [if_neg (show ¬ p % 7 = NODE_CAPACITY by rw [NODE_CAPACITY_eq]; omega)]
  rcases (show mh = 0 ∨ mh = 1 by omega) with h0 | h1
  · subst h0
    rw [if_pos (show wrap (2 * seqOf p + 0 + 1 <<< MARK_BIT_SHIFT) &&& MARK_BIT = 0 by
      rw [MARK_BIT_SHIFT_eq, shl_one, and_mark]
      unfold wrap USIZE
      omega)]
    rw [if_neg (show ¬ (2 * seqOf p + 0) >>> MARK_BIT_SHIFT
        = (2 * seqOf hist.length) >>> MARK_BIT_SHIFT by
      rw [MARK_BIT_SHIFT_eq, shr_one, shr_one]
      unfold seqOf
      omega)]
    by_cases h7 : p / 7 = hist.length / 7
    · have hnb : ¬ p % 7 + 1 = 7 := by omega
      have hsame : (2 * seqOf p + 0) >>> MARK_BIT_SHIFT / NODE_SIZE
          = (2 * seqOf hist.length) >>> MARK_BIT_SHIFT / NODE_SIZE := by
        rw [MARK_BIT_SHIFT_eq, shr_one, shr_one, NODE_SIZE_eq]
        unfold seqOf
        omega
      rw [if_neg (show ¬ ((2 * seqOf p + 0) >>> MARK_BIT_SHIFT / NODE_SIZE
          ≠ (2 * seqOf hist.length) >>> MARK_BIT_SHIFT / NODE_SIZE) from
        fun hne => hne hsame)]
      rw [show (if (p + 1) / 7 < hist.length / 7 then 1 else 0) = 0
        from if_neg (by omega)]
      exact ⟨_, popCommit_build_nb hist p 0 0 _ x hx hbound
        (by rw [NODE_CAPACITY_eq]; omega)
        (by rw [MARK_BIT_SHIFT_eq, shl_one]
            unfold wrap USIZE seqOf
            omega)⟩
    · rw [if_pos (show ((2 * seqOf p + 0) >>> MARK_BIT_SHIFT / NODE_SIZE
          ≠ (2 * seqOf hist.length) >>> MARK_BIT_SHIFT / NODE_SIZE) by
        rw [MARK_BIT_SHIFT_eq, shr_one, shr_one, NODE_SIZE_eq]
        unfold seqOf
        omega)]
      by_cases hbd : p % 7 + 1 = 7
      · exact ⟨_, popCommit_build_bd hist p 0 _ x hx hbound
          (by rw [NODE_CAPACITY_eq]; omega)
          (by rw [MARK_BIT_SHIFT_eq, shl_one, MARK_BIT_eq,
                show wrap (2 * seqOf p + 0 + 2) = 2 * (seqOf p + 1) from by
                  unfold wrap USIZE seqOf; omega,
                two_mul_lor_one]
              omega)⟩
      · rw [show (if (p + 1) / 7 < hist.length / 7 then 1 else 0) = 1
          from if_pos (by omega)]
        exact ⟨_, popCommit_build_nb hist p 0 1 _ x hx hbound
          (by rw [NODE_CAPACITY_eq]; omega)
          (by rw [MARK_BIT_SHIFT_eq, shl_one, MARK_BIT_eq,
                show wrap (2 * seqOf p + 0 + 2) = 2 * (seqOf p + 1) from by
                  unfold wrap USIZE seqOf; omega,
                two_mul_lor_one]
              unfold seqOf
              omega)⟩
  · subst h1
    rw [if_neg (show ¬ (wrap (2 * seqOf p + 1 + 1 <<< MARK_BIT_SHIFT) &&& MARK_BIT = 0) by
      rw [MARK_BIT_SHIFT_eq, shl_one, and_mark]
      unfold wrap USIZE
      omega)]
    have h7 : p / 7 < hist.length / 7 := by
      have h := hmark rfl
      rw [seq_div8, seq_div8] at h
      exact h
    by_cases hbd : p % 7 + 1 = 7
    · exact ⟨_, popCommit_build_bd hist p 1 _ x hx hbound
        (by rw [NODE_CAPACITY_eq]; omega)
        (by rw [MARK_BIT_SHIFT_eq, shl_one]
            unfold wrap USIZE seqOf
            omega)⟩
    · rw [show (if (p + 1) / 7 < hist.length / 7 then 1 else 0) = 1
        from if_pos (by omega)]
      exact ⟨_, popCommit_build_nb hist p 1 1 _ x hx hbound
        (by rw [NODE_CAPACITY_eq]; omega)
        (by rw [MARK_BIT_SHIFT_eq, shl_one]
            unfold wrap USIZE seqOf
            omega)⟩

end LfQueue

namespace LfQueue

lemma Ok_succ {α : Type} (hist : List α) (p mh : Nat) (hok : Ok hist p mh)
    (hlt : p < hist.length) :
    Ok hist (p + 1) (if (p + 1) / 7 < hist.length / 7 then 1 else 0) := by
  obtain ⟨h1, h2, h3, h4⟩ := hok
  refine ⟨by omega, by split <;> omega, ?_, h4⟩
  intro hm
  rw [seq_div8, seq_div8]
  by_cases hc : (p + 1) / 7 < hist.length / 7
  · exact hc
  · rw [if_neg hc] at hm
    omega

lemma Ok_append {α : Type} (hist : List α) (x : α) (p mh : Nat)
    (hok : Ok hist p mh) (hb : hist.length + 1 < 2 ^ 60) :
    Ok (hist ++ [x]) p mh := by
  obtain ⟨h1, h2, h3, h4⟩ := hok
  have hlen : (hist ++ [x]).length = hist.length + 1 := by simp
  refine ⟨by omega, h2, ?_, by omega⟩
  intro hm
  have h5 := h3 hm
  rw [hlen, seq_div8] at *
  rw [seq_div8] at h5 ⊢
  omega

lemma pushAll_build {α : Type} (l : List α) (hist : List α) (p mh : Nat)
    (hok : Ok hist p mh) (hb : hist.length + l.length < 2 ^ 60) :
    pushAll (buildState hist p mh) l = some (buildState (hist ++ l) p mh) := by
  induction l generalizing hist with
  | nil =>
    rw [List.append_nil]
    rfl
  | cons x l ih =>
    unfold pushAll
    obtain ⟨tr, htr⟩ := push_build hist p mh x hok
    rw [htr]
    dsimp only
    have hlb : hist.length + 1 < 2 ^ 60 := by
      simp only [List.length_cons] at hb
      omega
    have hok' : Ok (hist ++ [x]) p mh := Ok_append hist x p mh hok hlb
    have hlen : (hist ++ [x]).length = hist.length + 1 := by simp
    rw [ih (hist ++ [x]) hok' (by
      rw [hlen]
      simp only [List.length_cons] at hb
      omega)]
    rw [List.append_assoc, List.singleton_append]

end LfQueue

namespace LfQueue

lemma popN_build {α : Type} (k : Nat) (hist : List α) (p mh : Nat)
    (hok : Ok hist p mh) (hk : p + k = hist.length) :
    ∃ mh', Ok hist hist.length mh'
      ∧ popN (buildState hist p mh) (k + 1)
        = some ((List.range k).map (fun i => hist[p + i]?) ++ [none],
            buildState hist hist.length mh') := by
  induction k generalizing p mh with
  | zero =>
    have hp : p = hist.length := by omega
    subst hp
    refine ⟨mh, hok, ?_⟩
    unfold popN
    rw [pop_build_empty hist mh hok]
    rfl
  | succ k ih =>
    have hlt : p < hist.length := by omega
    have hx : hist[p]? = some hist[p] := List.getElem?_eq_getElem hlt
    obtain ⟨tr, htr⟩ := pop_build_cons hist p mh hist[p] hok hx
    have hok' : Ok hist (p + 1) (if (p + 1) / 7 < hist.length / 7 then 1 else 0) :=
      Ok_succ hist p mh hok hlt
    obtain ⟨mh', hokF, hrec⟩ := ih (p + 1)
      (if (p + 1) / 7 < hist.length / 7 then 1 else 0) hok' (by omega)
    refine ⟨mh', hokF, ?_⟩
    unfold popN
    rw [htr]
    dsimp only
    rw [hrec]
    dsimp only
    refine congrArg some (congrArg₂ Prod.mk ?_ rfl)
    have hlist : (List.range (k + 1)).map (fun i => hist[p + i]?)
        = hist[p]? :: (List.range k).map (fun i => hist[p + 1 + i]?) := by
      rw [List.range_succ_eq_map]
      simp only [List.map_cons, List.map_map]
      refine congrArg₂ List.cons ?_ ?_
      · rw [Nat.add_zero]
      · refine List.map_congr_left (fun i hi => ?_)
        simp only [Function.comp_apply]
        rw [show p + (i + 1) = p + 1 + i by omega]
    rw [hlist, hx]
    rfl

end LfQueue

namespace LfQueue

/-- C1: sequential FIFO correctness.  Pushing any list of items into a fresh
queue on a single thread and then popping `length + 1` times yields exactly
the pushed items in push order followed by the empty sentinel `none`. -/
theorem sequential_fifo {α : Type} (l : List α) (h : l.length < 2 ^ 60) :
    ∃ s s', pushAll (Inner.new : State α) l = some s
      ∧ popN s (l.length + 1) = some (l.map some ++ [none], s') := by
  have hok0 : Ok ([] : List α) 0 0 :=
    ⟨Nat.le_refl _, by omega, fun hm => absurd hm (by omega),
     by simp only [List.length_nil]; omega⟩
  have hpush := pushAll_build l [] 0 0 hok0 (by simpa using h)
  rw [List.nil_append] at hpush
  have hokl : Ok l 0 0 :=
    ⟨Nat.zero_le _, by omega, fun hm => absurd hm (by omega), h⟩
  obtain ⟨mh', hokF, hpop⟩ := popN_build l.length l 0 0 hokl (by omega)
  refine ⟨buildState l 0 0, buildState l l.length mh', ?_, ?_⟩
  · rw [init_build]
    exact hpush
  · have hmap : (List.range l.length).map (fun i => l[0 + i]?) = l.map some := by
      refine List.ext_getElem? (fun j => ?_)
      simp only [List.getElem?_map]
      by_cases hj : j < l.length
      · rw [List.getElem?_range hj, List.getElem?_eq_getElem hj]
        simp only [Option.map_some']
        rw [Nat.zero_add, List.getElem?_eq_getElem hj]
      · have h1 : l.length ≤ j := by omega
        rw [List.getElem?_eq_none (by simpa using h1), List.getElem?_eq_none h1]
        rfl
    rw [hpop, hmap]

theorem sequential_fifo_witness :
    (List.range 21).length < 2 ^ 60
    ∧ ∃ s s', pushAll (Inner.new : State Nat) (List.range 21) = some s
      ∧ popN s ((List.range 21).length + 1)
        = some ((List.range 21).map some ++ [none], s') :=
  ⟨by decide, sequential_fifo (List.range 21) (by decide)⟩

/-- C2: empty-observation correctness.  A fresh queue pops the empty
sentinel; after pushing one value it pops that value and then the empty
sentinel again; and over every reachable canonical state, pop observes
empty exactly when the head sequence number (`index >> 1`) equals the tail
sequence number. -/
theorem empty_observation {α : Type} (v : α) :
    (∃ s1 tr1 s2 tr2,
      Inner.pop (Inner.new : State α) = some (none, Inner.new, [])
      ∧ Inner.push (Inner.new : State α) v = some (s1, tr1)
      ∧ Inner.pop s1 = some (some v, s2, tr2)
      ∧ Inner.pop s2 = some (none, s2, []))
    ∧ (∀ (hist : List α) (p mh : Nat), Ok hist p mh →
        ((∃ s' tr, Inner.pop (buildState hist p mh) = some (none, s', tr))
          ↔ (buildState hist p mh).head.index >>> MARK_BIT_SHIFT
              = (buildState hist p mh).tail.index >>> MARK_BIT_SHIFT)) := by
  constructor
  · have hok0 : Ok ([] : List α) 0 0 :=
      ⟨Nat.le_refl _, by omega, fun hm => absurd hm (by omega),
       by simp only [List.length_nil]; omega⟩
    have hpop0 := pop_build_empty ([] : List α) 0 hok0
    have hokv : Ok [v] 0 0 :=
      ⟨by simp, by omega, fun hm => absurd hm (by omega),
       by simp only [List.length_singleton]; omega⟩
    obtain ⟨trp, htrp⟩ := push_build [] 0 0 v hok0
    rw [List.nil_append] at htrp
    have hxv : ([v] : List α)[0]? = some v := rfl
    obtain ⟨tr2, htr2⟩ := pop_build_cons [v] 0 0 v hokv hxv
    have hM : (if (0 + 1) / 7 < ([v] : List α).length / 7 then 1 else 0) = 0 := by
      simp only [List.length_singleton]
      exact if_neg (by omega)
    rw [hM] at htr2
    have hokE : Ok [v] ([v] : List α).length 0 :=
      ⟨Nat.le_refl _, by omega, fun hm => absurd hm (by omega),
       by simp only [List.length_singleton]; omega⟩
    have hpe := pop_build_empty [v] 0 hokE
    have h01 : ([v] : List α).length = 0 + 1 := by simp
    rw [h01] at hpe
    rw [init_build]
    exact ⟨buildState [v] 0 0, trp, buildState [v] (0 + 1) 0, tr2,
      hpop0, htrp, htr2, hpe⟩
  · intro hist p mh hok
    obtain ⟨hpn, hmh, hmark, hbound⟩ := hok
    constructor
    · rintro ⟨s', tr, hpop⟩
      by_cases hpe : p = hist.length
      · subst hpe
        dsimp only [buildState]
        rw [MARK_BIT_SHIFT_eq, shr_one, shr_one]
        omega
      · have hlt : p < hist.length := by omega
        have hx : hist[p]? = some hist[p] := List.getElem?_eq_getElem hlt
        obtain ⟨tr', htr'⟩ := pop_build_cons hist p mh hist[p]
          ⟨hpn, hmh, hmark, hbound⟩ hx
        rw [htr'] at hpop
        simp at hpop
    · intro heq
      have hpe : p = hist.length := by
        dsimp only [buildState] at heq
        rw [MARK_BIT_SHIFT_eq, shr_one, shr_one] at heq
        unfold seqOf at heq
        omega
      subst hpe
      have hmh0 : mh = 0 := by
        rcases (show mh = 0 ∨ mh = 1 by omega) with h | h
        · exact h
        · exact absurd (hmark h) (lt_irrefl _)
      subst hmh0
      exact ⟨_, _, pop_build_empty hist 0 ⟨hpn, hmh, hmark, hbound⟩⟩

theorem empty_observation_witness :
    Ok [5] 0 0
    ∧ ((∃ s' tr, Inner.pop (buildState [5] 0 0) = some (none, s', tr))
        ↔ (buildState [5] 0 0).head.index >>> MARK_BIT_SHIFT
            = (buildState [5] 0 0).tail.index >>> MARK_BIT_SHIFT) :=
  ⟨⟨by decide, by decide, fun hm => absurd hm (by decide), by decide⟩,
   (empty_observation 5).2 [5] 0 0
     ⟨by decide, by decide, fun hm => absurd hm (by decide), by decide⟩⟩

end LfQueue
